import Mathlib

/-!
Verification development for the `remake` build orchestrator (remake.cpp).

Targets and file contents are modelled as `List Char` (byte-exact strings,
no normalization, matching `std::string`).  `std::istream` streams are
modelled as the list of characters not yet consumed; `putback` leaves the
character at the head.  Machine `time_t` is modelled as `Int`.
-/

/-- A path / string, byte-exact as in the source (`std::string`). -/
abbrev Str := List Char

/-- The NUL character.  `strchr(set, 0)` in C always succeeds (it finds the
terminator), so in every `strchr`-based character-class test of the source
the NUL byte is a member. -/
def nulChar : Char := Char.ofNat 0

/-- The byte appended by `res += in.get()` when `get` returns EOF (-1):
`(char)(-1)` is the byte 0xFF. -/
def eofChar : Char := Char.ofNat 255

/-- Characters that `read_word` treats as word delimiters:
`strchr(" \t\r\n:", c)`, which also matches NUL (C string terminator). -/
def is_word_delim (c : Char) : Bool :=
  c == ' ' || c == '\t' || c == '\r' || c == '\n' || c == ':' || c == nulChar

/-- Characters escaped by `escape_string`: `strchr("\" \\$!", c)`,
which also matches NUL (C string terminator). -/
def is_escape_special (c : Char) : Bool :=
  c == '"' || c == ' ' || c == '\\' || c == '$' || c == '!' || c == nulChar

/-- One character of the quoted copy built by `escape_string`: a special
character is preceded by a backslash. -/
def esc_char (c : Char) : Str :=
  if is_escape_special c then ['\\', c] else [c]

/-- Model of `escape_string` (remake.cpp:350-367): the original string if it contains
no special character, otherwise a double-quoted copy with a backslash before
every special character. -/
def escape_string (s : Str) : Str :=
  if s.all (fun c => !is_escape_special c) then s
  else '"' :: s.flatMap esc_char ++ ['"']

/-- Model of `skip_spaces` (remake.cpp:372-377): consume leading `' '` characters. -/
def skip_spaces (s : Str) : Str := s.dropWhile (fun c => c == ' ')

/-- Model of `skip_eol` (remake.cpp:382-387): consume leading `'\r'`/`'\n'`
characters (and NUL, which `strchr` also matches). -/
def skip_eol (s : Str) : Str :=
  s.dropWhile (fun c => c == '\r' || c == '\n' || c == nulChar)

/-- The quoted-mode loop of `read_word` (remake.cpp:404-426, `quoted` true):
a backslash takes the next character literally (at EOF, `res += in.get()`
appends the byte `(char)(-1)`), a double quote ends the word, anything else
is copied. -/
def read_quoted : Str → Str → Str × Str
  | [], acc => (acc, [])
  | c :: s, acc =>
    if c == '\\' then
      match s with
      | [] => (acc ++ [eofChar], [])
      | d :: s' => read_quoted s' (acc ++ [d])
    else if c == '"' then (acc, s)
    else read_quoted s (acc ++ [c])

/-- The unquoted-mode loop of `read_word` (remake.cpp:404-426, `quoted`
false): copy characters until a delimiter (left in the stream) or EOF. -/
def read_plain : Str → Str → Str × Str
  | [], acc => (acc, [])
  | c :: s, acc =>
    if is_word_delim c then (acc, c :: s)
    else read_plain s (acc ++ [c])

/-- Model of `read_word` (remake.cpp:392-427): read a possibly quoted word; returns
the word and the rest of the stream (a leading delimiter is put back). -/
def read_word : Str → Str × Str
  | [] => ([], [])
  | c :: s =>
    if is_word_delim c then ([], c :: s)
    else if c == '"' then read_quoted s []
    else read_plain s [c]

/-! ## Dependency map (`dependency_map`, a `std::map<std::string, string_set>`)

The ordered containers of the source are modelled as association lists in
iteration order: a map is the list of its `(key, value)` pairs as iteration
would visit them, a `string_set` the list of its members in iteration order.
`deps[target].insert(dep)` keeps the entry of an existing key in place and
adds a fresh key as a new entry (modelled at the end of the list; the
iteration order of `std::map` is abstracted as the list order). -/

/-- One `deps[target].insert(dep)` step: add `d` to the set of `t`,
creating the entry if needed (sets are lists of distinct members). -/
def dep_insert : List (Str × List Str) → Str → Str → List (Str × List Str)
  | [], t, d => [(t, [d])]
  | (k, ds) :: m, t, d =>
    if k = t then (k, if d ∈ ds then ds else ds ++ [d]) :: m
    else (k, ds) :: dep_insert m t d

/-- Look up the dependency set recorded for `t` (`deps[t]`, empty when the
key is absent). -/
def dep_lookup : List (Str × List Str) → Str → List Str
  | [], _ => []
  | (k, ds) :: m, t => if k = t then ds else dep_lookup m t

/-- The keys of a dependency map. -/
def dep_keys (m : List (Str × List Str)) : List Str := m.map (·.1)

/-- Model of `save_dependencies`, one record (remake.cpp:474-480):
`<escaped target>: <escaped dep> <escaped dep> … \n`. -/
def save_record (t : Str) (ds : List Str) : Str :=
  escape_string t ++ [':', ' '] ++ (ds.flatMap fun d => escape_string d ++ [' ']) ++ ['\n']

/-- Model of `save_dependencies` (remake.cpp:466-482): write every entry with a
non-empty dependency set, in map iteration order. -/
def save_dependencies (m : List (Str × List Str)) : Str :=
  m.flatMap fun p => if p.2.isEmpty then [] else save_record p.1 p.2

/-- The `while (!(dep = read_word(in)).empty())` loop of `load_dependencies`
(remake.cpp:452-458): read dependency words for `t` until an empty word,
inserting each and skipping spaces.  The fuel only bounds the recursion
depth; each iteration of the source loop consumes at least one character,
so the caller's fuel (stream length + 1) is never exhausted. -/
def read_deps_loop : Nat → Str → List (Str × List Str) → Str → List (Str × List Str) × Str
  | 0, s, m, _ => (m, s)
  | fuel + 1, s, m, t =>
    let r := read_word s
    if r.1 = [] then (m, r.2)
    else read_deps_loop fuel (skip_spaces r.2) (dep_insert m t r.1) t

/-- The record loop of `load_dependencies` (remake.cpp:441-460): read a
target word (stop on an empty one), require `':'` (else the source prints
an error and exits — modelled as `none`), then read the dependency words
and the end of line.  Fuel as in `read_deps_loop`. -/
def load_loop : Nat → Str → List (Str × List Str) → Option (List (Str × List Str))
  | 0, _, _ => none
  | fuel + 1, s, m =>
    if s.isEmpty then some m
    else
      let r := read_word s
      if r.1 = [] then some m
      else
        match r.2 with
        | ':' :: s2 =>
          let q := read_deps_loop (s2.length + 1) (skip_spaces s2) m r.1
          load_loop fuel (skip_eol q.2) q.1
        | _ => none

/-- Model of `load_dependencies` (remake.cpp:432-461) applied to a file content
(an absent `.remake` file is the empty content, giving the empty map). -/
def load_dependencies (s : Str) : Option (List (Str × List Str)) :=
  load_loop (s.length + 1) s []

/-! ## Status cache (`status_e`, `status_t`, `status_map`, `get_status`) -/

/-- Model of `status_e` (remake.cpp:157-164). -/
inductive status_e where
  | Uptodate
  | Todo
  | Running
  | Remade
  | Failed
deriving DecidableEq

/-- Model of `status_t` (remake.cpp:169-173): status and last-modified date.
`status_t()` value-initializes to `⟨Uptodate, 0⟩` (the first enumerator and
time 0), which is what `status.insert` places in the map before the status
of a fresh target is computed. -/
structure status_t where
  status : status_e
  last : Int
deriving DecidableEq

/-- Model of `status_map` in iteration-order association-list form. -/
abbrev StatusMap := List (Str × status_t)

/-- Map lookup. -/
def lookupS : StatusMap → Str → Option status_t
  | [], _ => none
  | (k, v) :: m, t => if k = t then some v else lookupS m t

/-- Set the entry of `t` to `v` (replace if present, append otherwise).
This covers both the `status.insert` of a fresh key and the later in-place
assignment through the reference `ts`. -/
def setS : StatusMap → Str → status_t → StatusMap
  | [], t, v => [(t, v)]
  | (k, w) :: m, t, v => if k = t then (t, v) :: m else (k, w) :: setS m t v

/-- The file system as seen by `stat`: `fs t = some mtime` when `stat`
succeeds with that modification time, `none` when it fails. -/
abbrev FileTimes := Str → Option Int

/-- The dependency loop of `get_status` (remake.cpp:657-664), generic in
the recursive call: inspect each recorded dependency in order; stop at the
first one that is not `Uptodate` or is strictly younger than the target
(`goto obsolete`).  Returns whether such a dependency was found, and the
updated cache. -/
def check_deps_w (eval : StatusMap → Str → status_t × StatusMap) :
    List Str → Int → StatusMap → Bool × StatusMap
  | [], _, s => (false, s)
  | d :: ds', m, s =>
    let r := eval s d
    if r.1.status ≠ .Uptodate ∨ m < r.1.last then (true, r.2)
    else check_deps_w eval ds' m r.2

/-- Model of `get_status` (remake.cpp:642-669): memoize the status of `target`.
A cached entry is returned as is.  Otherwise the entry is first created as
`status_t()` (the in-progress placeholder a dependency cycle would observe),
then: a failed `stat` gives `Todo`; otherwise the recorded dependencies are
checked and the result is `Todo` or `Uptodate(mtime)`, written back into
the map.  `fuel` only bounds the recursion depth — the source recursion is
bounded because every visited target is memoized before recursing, so any
fuel at least the number of fresh reachable targets is enough; on
exhaustion a fresh target is completed as `Todo` (never reached by the
source). -/
def get_status (fs : FileTimes) (dm : Str → List Str) :
    Nat → StatusMap → Str → status_t × StatusMap
  | fuel, s, t =>
    match lookupS s t with
    | some v => (v, s)
    | none =>
      match fuel with
      | 0 => (⟨.Todo, 0⟩, setS s t ⟨.Todo, 0⟩)
      | f + 1 =>
        let s1 := setS s t ⟨.Uptodate, 0⟩
        match fs t with
        | none => (⟨.Todo, 0⟩, setS s1 t ⟨.Todo, 0⟩)
        | some m =>
          let r := check_deps_w (fun s' d => get_status fs dm f s' d) (dm t) m s1
          if r.1 then (⟨.Todo, 0⟩, setS r.2 t ⟨.Todo, 0⟩)
          else (⟨.Uptodate, m⟩, setS r.2 t ⟨.Uptodate, m⟩)

/-- The dependency loop at a fixed fuel. -/
def check_deps (fs : FileTimes) (dm : Str → List Str) (fuel : Nat) :
    List Str → Int → StatusMap → Bool × StatusMap :=
  check_deps_w (fun s d => get_status fs dm fuel s d)

/-! ## Rules and the rule matcher (`rule_t`, `substitute_pattern`, `find_rule`) -/

/-- Model of `rule_t` (remake.cpp:180-187); `rule_t()` has `generic` false and
empty lists. -/
structure rule_t where
  generic : Bool := false
  targets : List Str := []
  deps : List Str := []
  script : Str := []
deriving DecidableEq

/-- One string of `substitute_pattern` (remake.cpp:583-592): replace the
first `%` by `pat` (`substr(0,pos) + pat + substr(pos+1)`), or keep the
string if it has no `%`. -/
def subst_one (pat : Str) (s : Str) : Str :=
  if '%' ∈ s then s.takeWhile (fun c => c != '%') ++ pat ++ (s.dropWhile (fun c => c != '%')).drop 1
  else s

/-- Model of `substitute_pattern` (remake.cpp:583-592) over a list of strings. -/
def substitute_pattern (pat : Str) (src : List Str) : List Str :=
  src.map (subst_one pat)

/-- The instantiated rule built at remake.cpp:626-629: a fresh `rule_t`
(hence `generic` false) with the source script and the pattern substituted
into targets and dependencies. -/
def instantiate_rule (r : rule_t) (pat : Str) : rule_t :=
  { script := r.script,
    targets := substitute_pattern pat r.targets,
    deps := substitute_pattern pat r.deps }

/-- Result of scanning the target patterns of one rule inside `find_rule`:
either an immediate non-generic exact match (the `return *i` at
remake.cpp:612), or the updated best-match accumulator `(plen, rule)`. -/
inductive scan_result where
  | exact (r : rule_t)
  | cont (plen : Nat) (best : rule_t)
deriving DecidableEq

/-- The inner loop of `find_rule` (remake.cpp:607-631) over the target
patterns `js` of rule `r`, with current best stem length `plen` and best
instantiated rule `best`.  For a non-generic rule an equal pattern returns
the rule itself.  For a generic rule a pattern is skipped when the target
is shorter than the pattern, when the stem `tlen - (len - 1)` would not
beat `plen`, when the pattern has no `%`, or when the prefix or suffix
does not match; otherwise the accumulator is replaced and the remaining
patterns of this rule are skipped (the `break`). -/
def scan_targets (r : rule_t) (target : Str) : List Str → Nat → rule_t → scan_result
  | [], plen, best => .cont plen best
  | j :: js, plen, best =>
    if r.generic = false then
      if j = target then .exact r else scan_targets r target js plen best
    else
      let len := j.length
      let tlen := target.length
      if tlen < len then scan_targets r target js plen best
      else if plen ≤ tlen - (len - 1) then scan_targets r target js plen best
      else if '%' ∉ j then scan_targets r target js plen best
      else
        let pos := (j.takeWhile (fun c => c != '%')).length
        let len2 := len - (pos + 1)
        if j.take pos = target.take pos ∧ j.drop (pos + 1) = target.drop (tlen - len2) then
          .cont (tlen - (len - 1)) (instantiate_rule r ((target.drop pos).take (tlen - (len - 1))))
        else scan_targets r target js plen best

/-- The outer loop of `find_rule` (remake.cpp:604-632) over the rule list,
threading the best-match accumulator. -/
def find_rule_aux (target : Str) : List rule_t → Nat → rule_t → rule_t
  | [], _, best => best
  | r :: rs, plen, best =>
    match scan_targets r target r.targets plen best with
    | .exact r' => r'
    | .cont plen' best' => find_rule_aux target rs plen' best'

/-- Model of `find_rule` (remake.cpp:600-634): initial best stem length 10000 and
initial rule `rule_t()` (whose empty target list is the "no rule" result
checked by the caller at remake.cpp:758). -/
def find_rule (rules : List rule_t) (target : Str) : rule_t :=
  find_rule_aux target rules 10000 {}

/-! ## Job completion (`complete_job`) and reaping (`server_loop`) -/

/-- Model of `status[t].status = st` (remake.cpp:685, 695): `operator[]` creates a
value-initialized `status_t()` for a fresh key, then the `status` field is
assigned; the `last` field is kept. -/
def set_status_field (m : StatusMap) (t : Str) (st : status_e) : StatusMap :=
  match lookupS m t with
  | some v => setS m t { status := st, last := v.last }
  | none => setS m t { status := st, last := 0 }

/-- Model of `remove(t)` (remake.cpp:697): unlink the file from the file system. -/
def unlink_file (fs : FileTimes) (t : Str) : FileTimes :=
  fun x => if x = t then none else fs x

/-- Model of `complete_job` (remake.cpp:674-702) acting on the status map and the
file system, given the job's target list (`job_targets[job_id]`): on
success every target is marked `Remade`; on failure every target is marked
`Failed` and its file is removed. -/
def complete_job (targets : List Str) (success : Bool) (m : StatusMap) (fs : FileTimes) :
    StatusMap × FileTimes :=
  if success then
    (targets.foldl (fun acc t => set_status_field acc t .Remade) m, fs)
  else
    targets.foldl (fun acc t => (set_status_field acc.1 t .Failed, unlink_file acc.2 t)) (m, fs)

/-- Model of `WIFEXITED(status)` as on Linux/glibc: the low 7 bits are zero. -/
def wifexited (s : Nat) : Bool := s % 128 == 0

/-- Model of `WEXITSTATUS(status)` as on Linux/glibc: bits 8-15. -/
def wexitstatus (s : Nat) : Nat := s / 256 % 256

/-- The success computed for a reaped child (remake.cpp:1054):
`WIFEXITED(status) && WEXITSTATUS(status) == 0`. -/
def reap_success (s : Nat) : Bool := wifexited s && (wexitstatus s == 0)

/-- How a child terminated. -/
inductive child_outcome where
  | exited (code : Nat)
  | signaled (sig : Nat) (core : Bool)
deriving DecidableEq

/-- The wait status the kernel reports for an outcome: `code << 8` for a
normal exit, the signal number (plus the core-dump bit 0x80) otherwise. -/
def encode_wait : child_outcome → Nat
  | .exited c => c * 256
  | .signaled g core => g + (if core then 128 else 0)

/-- Validity of an outcome: exit codes are 8 bits, signal numbers are
1..127. -/
def wait_valid : child_outcome → Prop
  | .exited c => c < 256
  | .signaled g _ => 1 ≤ g ∧ g < 128

/-! ## Rule loading (`load_rules`) -/

/-- Model of `load_state_e` (remake.cpp:487). -/
inductive load_state where
  | Bof
  | Tgt
  | Dep
  | Script
deriving DecidableEq

/-- Finish the current rule when a new word starts in state `Script` or at
end of file (remake.cpp:538-544, 572-577): the accumulated buffer becomes
the script. -/
def finalize_rule (cur : rule_t) (buf : Str) : rule_t := { cur with script := buf }

/-- The word-handling tail of the `load_rules` loop (remake.cpp:536-570),
after the current rule has (if needed) been pushed: read a word starting
at `c`, skip the following spaces, and apply the `%` checks and the
target/dependency bookkeeping of the source.  Returns `none` on
`goto error` (syntax error), otherwise the updated stream, state, current
rule and dependency map.  For a non-generic rule the new dependency word
is inserted into the dependency map for every target of the rule
(remake.cpp:563-569). -/
def lr_word (c : Char) (s' : Str) (state : load_state) (cur : rule_t)
    (dm : List (Str × List Str)) :
    Option (Str × load_state × rule_t × List (Str × List Str)) :=
  let r := read_word (c :: s')
  let w := r.1
  let s2 := skip_spaces r.2
  if w = [] then none
  else if '%' ∈ w then
    if (state = .Tgt ∨ state = .Dep) ∧ cur.generic = false then none
    else
      let cur1 := { cur with generic := true }
      if state ≠ .Dep then some (s2, .Tgt, { cur1 with targets := cur1.targets ++ [w] }, dm)
      else some (s2, .Dep, { cur1 with deps := cur1.deps ++ [w] }, dm)
  else if state = .Tgt ∧ cur.generic = true then none
  else if state ≠ .Dep then some (s2, .Tgt, { cur with targets := cur.targets ++ [w] }, dm)
  else
    let cur1 := { cur with deps := cur.deps ++ [w] }
    if cur1.generic then some (s2, .Dep, cur1, dm)
    else some (s2, .Dep, cur1, cur1.targets.foldl (fun m t => dep_insert m t w) dm)

/-- The character loop of `load_rules` (remake.cpp:513-577).  In state
`Script` a tab starts a script line read up to (and excluding) the
newline; `in.get(*buf.rdbuf())` extracting zero characters sets the fail
bit, which ends the load with a syntax error unless the stream is at end
of file (then the loop exits and the rule is finished).  `'\r'`/`'\n'`
in `Script` go to the buffer, `'\n'` closes a dependency list, `':'`
closes a target list, and any other character starts a word (first
finishing the previous rule when in state `Script`).  At end of file a
started rule is finished and appended.  The fuel only bounds the recursion
depth; every iteration of the source loop consumes at least one character,
so fuel `input length + 1` is never exhausted. -/
def load_rules_loop :
    Nat → Str → load_state → rule_t → Str → List rule_t → List (Str × List Str) →
    Option (List rule_t × List (Str × List Str))
  | 0, _, _, _, _, _, _ => none
  | fuel + 1, s, state, cur, buf, rules, dm =>
    match s with
    | [] =>
      if state ≠ .Bof then some (rules ++ [finalize_rule cur buf], dm)
      else some (rules, dm)
    | c :: s' =>
      if state = .Script ∧ c = '\t' then
        match s' with
        | [] => some (rules ++ [finalize_rule cur buf], dm)
        | d :: _ =>
          if d = '\n' then none
          else
            load_rules_loop fuel (s'.dropWhile (fun x => x != '\n')) state cur
              (buf ++ s'.takeWhile (fun x => x != '\n')) rules dm
      else if state = .Script ∧ (c = '\r' ∨ c = '\n') then
        load_rules_loop fuel s' state cur (buf ++ [c]) rules dm
      else if state = .Dep ∧ c = '\n' then
        load_rules_loop fuel s' .Script cur buf rules dm
      else if state = .Tgt ∧ c = ':' then
        load_rules_loop fuel (skip_spaces s') .Dep cur buf rules dm
      else
        let p := if state = .Script then (rules ++ [finalize_rule cur buf], ({} : rule_t), ([] : Str))
          else (rules, cur, buf)
        match lr_word c s' state p.2.1 dm with
        | none => none
        | some q => load_rules_loop fuel q.1 q.2.1 q.2.2.1 p.2.2 p.1 q.2.2.2

/-- Model of `load_rules` (remake.cpp:494-578) on a file content, starting from a
dependency map `dm` (the one `load_dependencies` produced): the loaded
rule list and the dependency map enriched with the static dependencies of
non-generic rules. -/
def load_rules (dm : List (Str × List Str)) (s : Str) :
    Option (List rule_t × List (Str × List Str)) :=
  load_rules_loop (s.length + 1) s .Bof {} [] [] dm

/-! ## Slot accounting (`has_free_slots`) and the counters of the server -/

/-- The two job counters (`running_jobs`, `waiting_jobs`,
remake.cpp:268-276), as C `int`s. -/
structure sched_state where
  running : Int
  waiting : Int
deriving DecidableEq

/-- Model of `has_free_slots` (remake.cpp:814-818): always true for a non-positive
cap, otherwise `running_jobs - waiting_jobs < max_active_jobs`. -/
def has_free_slots (cap : Int) (s : sched_state) : Bool :=
  if cap ≤ 0 then true else decide (s.running - s.waiting < cap)

/-- The counter updates of the server, with the guards the source
establishes at each call site:
* `start_job`: `++running_jobs` in `run_script` (remake.cpp:723).  Both
  callers run under `has_free_slots`: the `update_clients` loop guard
  (remake.cpp:831) is rechecked after every started job (remake.cpp:884),
  and `complete_request` (remake.cpp:796) is reached from that same loop
  body with no job started in between.
* `accept`: `++waiting_jobs` in `accept_client` (remake.cpp:1010).
* `reap`: `--running_jobs` in `server_loop` (remake.cpp:1059).
* `reply`: `--waiting_jobs` in `complete_request` (remake.cpp:805), again
  only reached from the guarded `update_clients` loop body. -/
inductive sched_step (cap : Int) : sched_state → sched_state → Prop
  | start_job (s : sched_state) : has_free_slots cap s = true →
      sched_step cap s ⟨s.running + 1, s.waiting⟩
  | accept (s : sched_state) : sched_step cap s ⟨s.running, s.waiting + 1⟩
  | reap (s : sched_state) : sched_step cap s ⟨s.running - 1, s.waiting⟩
  | reply (s : sched_state) : has_free_slots cap s = true →
      sched_step cap s ⟨s.running, s.waiting - 1⟩

/-- States reachable by the server loop from the initial counters 0/0. -/
inductive sched_reachable (cap : Int) : sched_state → Prop
  | init : sched_reachable cap ⟨0, 0⟩
  | step (s s' : sched_state) : sched_reachable cap s → sched_step cap s s' →
      sched_reachable cap s'

/-! ## Build failure and the exit code of the server -/

/-- The only assignment to `build_failure` (remake.cpp:808): set when a
client without a job id (a seed client, `job_id < 0`) completes without
success. -/
def update_build_failure (bf : Bool) (job_id : Int) (success : Bool) : Bool :=
  if job_id < 0 ∧ success = false then true else bf

/-- Model of `build_failure` after a run whose request completions are `events`
(pairs of the client's `job_id` and its success), starting from the
zero-initialized flag. -/
def final_build_failure (events : List (Int × Bool)) : Bool :=
  events.foldl (fun bf e => update_build_failure bf e.1 e.2) false

/-- The exit status of `server_mode` (remake.cpp:1092):
`exit(build_failure ? 1 : 0)`. -/
def server_exit_code (events : List (Int × Bool)) : Nat :=
  if final_build_failure events then 1 else 0

/-! ## Client mode (`client_mode`) -/

/-- Observable actions of `client_mode`, in order. -/
inductive cevent where
  | exited (code : Nat)
  | connected
  | sent_job_id (job_id : Int)
  | sent_target (t : Str)
  | sent_terminator
deriving DecidableEq

/-- The syscall outcomes `client_mode` can encounter. -/
structure client_env where
  path_ok : Bool
  socket_ok : Bool
  connect_ok : Bool
  send_ok : Bool
  job_id : Int
  reply : Option Nat
deriving DecidableEq

/-- Model of `client_mode` (remake.cpp:1099-1142) as its trace of observable
actions.  An empty target list exits 0 before anything else; then: too
long a socket path exits 1, `socket`/`connect` failure exits 1, the job id
and each target and the terminating NUL are sent (send failures, collapsed
into one flag, exit 1), and the reply byte decides the exit status
(`exit(result ? 0 : 1)`); a failed `recv` exits 1. -/
def client_mode (env : client_env) (targets : List Str) : List cevent :=
  if targets.isEmpty then [.exited 0]
  else if env.path_ok = false then [.exited 1]
  else if env.socket_ok = false then [.exited 1]
  else if env.connect_ok = false then [.exited 1]
  else if env.send_ok = false then [.connected, .exited 1]
  else
    [.connected, .sent_job_id env.job_id] ++ targets.map .sent_target ++
      [.sent_terminator] ++
      match env.reply with
      | none => [.exited 1]
      | some b => [.exited (if b = 0 then 1 else 0)]

/-! ## Derived predicates used by the theorems

These are not part of the embedding of the source: they package the
side conditions and selection rules the claims speak about
(`spec_pattern_matches` and the selection rule `pick_shortest` follow the
spec's words; `pattern_stem?` restates the per-pattern test of
remake.cpp:615-625 without the best-stem threshold). -/

/-- Strings whose escaped form reads back intact: either some character is
escaped (the word is emitted quoted) or no character is a word delimiter
(the raw word is read back whole). -/
def escape_safe (s : Str) : Bool :=
  s.any is_escape_special || s.all (fun c => !is_word_delim c)

/-- The stream after a word must be empty or start with a delimiter for
`read_word` to stop at the right place. -/
def delim_or_nil (rest : Str) : Prop :=
  rest = [] ∨ ∃ c rest', rest = c :: rest' ∧ is_word_delim c = true

/-- The in-memory dependency map type. -/
abbrev DepMap := List (Str × List Str)

/-- Well-formed in-memory database: distinct keys; every key and every
dependency is a non-empty escape-safe string; every dependency set is
non-empty with distinct members. -/
def db_wf (m : DepMap) : Prop :=
  (dep_keys m).Nodup ∧
  ∀ p ∈ m, escape_safe p.1 = true ∧ p.1 ≠ [] ∧ p.2 ≠ [] ∧ p.2.Nodup ∧
    ∀ d ∈ p.2, escape_safe d = true ∧ d ≠ []

/-- The dependency section of a saved record. -/
def deps_stream (ds : List Str) : Str :=
  ds.flatMap fun d => escape_string d ++ [' ']

/-- The per-pattern test of `find_rule` (remake.cpp:615-625), without the
best-stem threshold: the stem with which pattern `j` matches `target`
(requires a `%`, a target at least as long as the pattern, and matching
prefix and suffix), or `none`. -/
def pattern_stem? (target j : Str) : Option Str :=
  if '%' ∈ j then
    let len := j.length
    let tlen := target.length
    let pos := (j.takeWhile (fun c => c != '%')).length
    let len2 := len - (pos + 1)
    if j.length ≤ target.length ∧ j.take pos = target.take pos ∧
        j.drop (pos + 1) = target.drop (tlen - len2)
    then some ((target.drop pos).take (tlen - (len - 1)))
    else none
  else none

/-- The candidates the spec's selection rule ranges over: each generic rule
through its single target pattern, with the stem length and the
instantiation. -/
def generic_candidates (rules : List rule_t) (t : Str) : List (Nat × rule_t) :=
  rules.flatMap fun r =>
    if r.generic then
      match r.targets with
      | [j] =>
        match pattern_stem? t j with
        | some st => [(st.length, instantiate_rule r st)]
        | none => []
      | _ => []
    else []

/-- The spec's selection rule: shortest stem, ties broken by the first
occurrence in source order. -/
def pick_shortest (cs : List (Nat × rule_t)) : Option (Nat × rule_t) :=
  cs.foldl (fun acc c =>
    match acc with
    | none => some c
    | some b => if c.1 < b.1 then some c else some b) none

/-- The match condition claimed by the spec for a generic pattern
`P = prefix % suffix` (prefix = before the first `%`, suffix = after):
`len(target) ≥ len(prefix)+len(suffix)`, target begins with the prefix and
ends with the suffix — the empty stem is allowed. -/
def spec_pattern_matches (t j : Str) : Prop :=
  (j.takeWhile (fun c => c != '%')).length +
      ((j.dropWhile (fun c => c != '%')).drop 1).length ≤ t.length ∧
  t.take (j.takeWhile (fun c => c != '%')).length = j.takeWhile (fun c => c != '%') ∧
  t.drop (t.length - ((j.dropWhile (fun c => c != '%')).drop 1).length) =
    (j.dropWhile (fun c => c != '%')).drop 1

/-- Invariant: every non-generic rule of the list has all its static
dependencies recorded for all its targets. -/
def rules_deps_ok (rules : List rule_t) (dm : DepMap) : Prop :=
  ∀ r ∈ rules, r.generic = false → ∀ t ∈ r.targets, ∀ d ∈ r.deps, d ∈ dep_lookup dm t

/-- Invariant for the rule currently being parsed. -/
def cur_deps_ok (cur : rule_t) (dm : DepMap) : Prop :=
  cur.generic = false → ∀ t ∈ cur.targets, ∀ d ∈ cur.deps, d ∈ dep_lookup dm t

/-! ## Basic lemmas on the association-list maps -/

theorem lookupS_setS_self (m : StatusMap) (t : Str) (v : status_t) :
    lookupS (setS m t v) t = some v := by
  induction m with
  | nil => simp [setS, lookupS]
  | cons p m ih =>
    obtain ⟨k, w⟩ := p
    by_cases h : k = t <;> simp [setS, lookupS, h, ih]

theorem lookupS_setS_other (m : StatusMap) (t u : Str) (v : status_t) (h : u ≠ t) :
    lookupS (setS m t v) u = lookupS m u := by
  induction m with
  | nil => simp [setS, lookupS, Ne.symm h]
  | cons p m ih =>
    obtain ⟨k, w⟩ := p
    by_cases hk : k = t
    · subst hk
      simp [setS, lookupS, Ne.symm h]
    · simp [setS, lookupS, hk, ih]

/-! ## Claim C4: slot accounting -/

/-- Claim C4: whenever the parallelism cap is positive, every state the
server loop can reach satisfies `running_jobs - waiting_jobs ≤
max_active_jobs`; and `has_free_slots` computes exactly the condition
"`max_active_jobs ≤ 0` or `running_jobs - waiting_jobs < max_active_jobs`"
under which a new job may start. -/
theorem C4_slot_invariant (cap : Int) (s : sched_state) (h : sched_reachable cap s) :
    (0 < cap → s.running - s.waiting ≤ cap) ∧
    (∀ s2 : sched_state,
      has_free_slots cap s2 = true ↔ (cap ≤ 0 ∨ s2.running - s2.waiting < cap)) := by
  have hf : ∀ s2 : sched_state,
      has_free_slots cap s2 = true ↔ (cap ≤ 0 ∨ s2.running - s2.waiting < cap) := by
    intro s2
    by_cases h1 : cap ≤ 0 <;> simp [has_free_slots, h1]
  refine ⟨?_, hf⟩
  intro hcap
  induction h with
  | init => simp; omega
  | step s s' hr hstep ih =>
    cases hstep with
    | start_job hg =>
      rcases (hf s).mp hg with h2 | h2 <;> dsimp only <;> omega
    | accept => dsimp only; omega
    | reap => dsimp only; omega
    | reply hg =>
      rcases (hf s).mp hg with h2 | h2 <;> dsimp only <;> omega

theorem C4_slot_invariant_witness :
    sched_reachable 2 ⟨1, 0⟩ ∧
    ((0 < (2 : Int) → (1 : Int) - 0 ≤ 2) ∧
      (∀ s2 : sched_state,
        has_free_slots 2 s2 = true ↔ ((2 : Int) ≤ 0 ∨ s2.running - s2.waiting < 2))) := by
  have hr : sched_reachable 2 ⟨1, 0⟩ := by
    have h0 : sched_reachable 2 ⟨0, 0⟩ := sched_reachable.init
    exact sched_reachable.step _ _ h0 (sched_step.start_job _ (by decide))
  exact ⟨hr, C4_slot_invariant 2 ⟨1, 0⟩ hr⟩

/-! ## Claim C5: build failure and exit code -/

theorem final_bf_foldl (events : List (Int × Bool)) :
    ∀ bf : Bool, events.foldl (fun b e => update_build_failure b e.1 e.2) bf
      = (bf || events.any fun e => decide (e.1 < 0) && !e.2) := by
  induction events with
  | nil => simp
  | cons e es ih =>
    intro bf
    obtain ⟨j, r⟩ := e
    simp only [List.foldl_cons, List.any_cons, ih]
    rcases r with _ | _ <;> by_cases h : j < 0 <;>
      simp [update_build_failure, h, Bool.or_assoc]

/-- Claim C5: the server exits with status 1 exactly when some seed client
(`job_id < 0`) completed with failure — `build_failure` is set only at
that completion (remake.cpp:808) and decides the exit status
(remake.cpp:1092); failures of clients that do have a job id never make
the exit status 1 by themselves. -/
theorem C5_exit_code (events : List (Int × Bool)) :
    (server_exit_code events = 1 ↔ ∃ e ∈ events, e.1 < 0 ∧ e.2 = false) ∧
    (server_exit_code events = 0 ∨ server_exit_code events = 1) := by
  constructor
  · simp only [server_exit_code, final_build_failure, final_bf_foldl, Bool.false_or]
    rw [show (1 : Nat) = if true then 1 else 0 from rfl]
    constructor
    · intro h
      have : (events.any fun e => decide (e.1 < 0) && !e.2) = true := by
        by_contra hne
        simp only [hne] at h
        exact absurd h (by decide)
      rcases List.any_eq_true.mp this with ⟨e, he, hp⟩
      simp only [Bool.and_eq_true, decide_eq_true_eq, Bool.not_eq_true'] at hp
      exact ⟨e, he, hp⟩
    · intro ⟨e, he, h1, h2⟩
      have : (events.any fun e => decide (e.1 < 0) && !e.2) = true :=
        List.any_eq_true.mpr ⟨e, he, by simp [h1, h2]⟩
      simp [this]
  · unfold server_exit_code
    split <;> simp

/-! ## Claim C10: client mode with no targets -/

/-- Claim C10: in client mode an empty target list makes the process exit
with status 0 immediately (remake.cpp:1107), before connecting to the
server socket and before sending anything. -/
theorem C10_client_empty (env : client_env) (targets : List Str) (h : targets = []) :
    client_mode env targets = [cevent.exited 0] ∧
    cevent.connected ∉ client_mode env targets ∧
    (∀ j : Int, cevent.sent_job_id j ∉ client_mode env targets) ∧
    (∀ t : Str, cevent.sent_target t ∉ client_mode env targets) ∧
    cevent.sent_terminator ∉ client_mode env targets := by
  subst h
  refine ⟨rfl, ?_, ?_, ?_, ?_⟩ <;> simp [client_mode]

/-! ## Claim C6: job completion and reap success -/

theorem lookupS_fold_set_status_of_not_mem (st : status_e) :
    ∀ (ts : List Str) (m : StatusMap) (u : Str), u ∉ ts →
      lookupS (ts.foldl (fun acc t => set_status_field acc t st) m) u = lookupS m u := by
  intro ts
  induction ts with
  | nil => intro m u _; rfl
  | cons a ts ih =>
    intro m u hu
    rw [List.mem_cons] at hu
    push_neg at hu
    rw [List.foldl_cons, ih _ _ hu.2]
    unfold set_status_field
    cases lookupS m a <;> exact lookupS_setS_other _ _ _ _ hu.1

theorem lookupS_fold_set_status_of_mem (st : status_e) :
    ∀ (ts : List Str) (m : StatusMap) (u : Str), u ∈ ts →
      ∃ v, lookupS (ts.foldl (fun acc t => set_status_field acc t st) m) u = some v ∧
        v.status = st := by
  intro ts
  induction ts with
  | nil => intro m u hu; cases hu
  | cons a ts ih =>
    intro m u hu
    by_cases h2 : u ∈ ts
    · exact ih _ _ h2
    · have hua : u = a := by
        rcases List.mem_cons.mp hu with h | h
        · exact h
        · exact absurd h h2
      subst hua
      rw [List.foldl_cons, lookupS_fold_set_status_of_not_mem st ts _ _ h2]
      unfold set_status_field
      cases lookupS m u <;> exact ⟨_, lookupS_setS_self _ _ _, rfl⟩

theorem fold_unlink_of_mem :
    ∀ (ts : List Str) (fs : FileTimes) (u : Str), u ∈ ts →
      (ts.foldl (fun acc t => unlink_file acc t) fs) u = none := by
  intro ts
  induction ts with
  | nil => intro fs u hu; cases hu
  | cons a ts ih =>
    intro fs u hu
    by_cases h2 : u ∈ ts
    · exact ih _ _ h2
    · have hua : u = a := by
        rcases List.mem_cons.mp hu with h | h
        · exact h
        · exact absurd h h2
      subst hua
      have hrest : ∀ (ts2 : List Str) (g : FileTimes), u ∉ ts2 →
          (ts2.foldl (fun acc t => unlink_file acc t) g) u = g u := by
        intro ts2
        induction ts2 with
        | nil => intro g _; rfl
        | cons b ts2 ih2 =>
          intro g hg
          rw [List.mem_cons] at hg
          push_neg at hg
          rw [List.foldl_cons, ih2 _ hg.2]
          simp [unlink_file, hg.1]
      rw [List.foldl_cons, hrest ts _ h2]
      simp [unlink_file]

theorem complete_job_false_split :
    ∀ (targets : List Str) (m : StatusMap) (fs : FileTimes),
      complete_job targets false m fs =
        (targets.foldl (fun acc t => set_status_field acc t .Failed) m,
          targets.foldl (fun acc t => unlink_file acc t) fs) := by
  have aux : ∀ (ts : List Str) (m : StatusMap) (fs : FileTimes),
      ts.foldl (fun acc t => (set_status_field acc.1 t .Failed, unlink_file acc.2 t)) (m, fs) =
        (ts.foldl (fun acc t => set_status_field acc t .Failed) m,
          ts.foldl (fun acc t => unlink_file acc t) fs) := by
    intro ts
    induction ts with
    | nil => intro m fs; rfl
    | cons c ts ih =>
      intro m fs
      rw [List.foldl_cons, ih, List.foldl_cons, List.foldl_cons]
  intro targets m fs
  unfold complete_job
  rw [if_neg (by simp), aux]

/-- Claim C6: `complete_job` with success marks every target of the job
`Remade` and leaves the file system alone; with failure it marks every
target `Failed` and unlinks its file; and the success computed for a
reaped child is true exactly for a normal exit with status 0. -/
theorem C6_complete_job (targets : List Str) (m : StatusMap) (fs : FileTimes)
    (t : Str) (ht : t ∈ targets) :
    (∃ v, lookupS (complete_job targets true m fs).1 t = some v ∧ v.status = .Remade) ∧
    (complete_job targets true m fs).2 = fs ∧
    (∃ v, lookupS (complete_job targets false m fs).1 t = some v ∧ v.status = .Failed) ∧
    (complete_job targets false m fs).2 t = none ∧
    (∀ o : child_outcome, wait_valid o →
      (reap_success (encode_wait o) = true ↔ o = .exited 0)) := by
  refine ⟨?_, rfl, ?_, ?_, ?_⟩
  · exact lookupS_fold_set_status_of_mem _ _ _ _ ht
  · rw [complete_job_false_split]
    exact lookupS_fold_set_status_of_mem _ _ _ _ ht
  · rw [complete_job_false_split]
    exact fold_unlink_of_mem _ _ _ ht
  · intro o hv
    cases o with
    | exited c =>
      simp only [wait_valid] at hv
      simp only [encode_wait, reap_success, wifexited, wexitstatus]
      constructor
      · intro h
        simp only [Bool.and_eq_true, beq_iff_eq] at h
        have hc : c = 0 := by omega
        rw [hc]
      · intro h
        cases h
        decide
    | signaled g core =>
      simp only [wait_valid] at hv
      simp only [encode_wait, reap_success, wifexited, wexitstatus]
      constructor
      · intro h
        simp only [Bool.and_eq_true, beq_iff_eq] at h
        rcases core with _ | _ <;> simp at h <;> omega
      · intro h
        cases h

theorem C6_complete_job_witness :
    (['a'] : Str) ∈ [(['a'] : Str)] ∧
    ((∃ v, lookupS (complete_job [['a']] true [] (fun _ => some 7)).1 ['a'] = some v ∧
        v.status = .Remade) ∧
      (complete_job [['a']] true [] (fun _ => some 7)).2 = (fun _ => some 7) ∧
      (∃ v, lookupS (complete_job [['a']] false [] (fun _ => some 7)).1 ['a'] = some v ∧
        v.status = .Failed) ∧
      (complete_job [['a']] false [] (fun _ => some 7)).2 ['a'] = none ∧
      (∀ o : child_outcome, wait_valid o →
        (reap_success (encode_wait o) = true ↔ o = .exited 0))) :=
  ⟨by decide, C6_complete_job [['a']] [] (fun _ => some 7) ['a'] (by decide)⟩

theorem C10_client_empty_witness :
    client_mode ⟨true, true, true, true, -1, some 1⟩ [] = [cevent.exited 0] ∧
    cevent.connected ∉ client_mode ⟨true, true, true, true, -1, some 1⟩ [] ∧
    (∀ j : Int, cevent.sent_job_id j ∉ client_mode ⟨true, true, true, true, -1, some 1⟩ []) ∧
    (∀ t : Str, cevent.sent_target t ∉ client_mode ⟨true, true, true, true, -1, some 1⟩ []) ∧
    cevent.sent_terminator ∉ client_mode ⟨true, true, true, true, -1, some 1⟩ [] :=
  C10_client_empty ⟨true, true, true, true, -1, some 1⟩ [] rfl

/-! ## Claim C8: escaping round trip -/

theorem read_plain_cons (c : Char) (s acc : Str) (h : is_word_delim c = false) :
    read_plain (c :: s) acc = read_plain s (acc ++ [c]) := by
  simp [read_plain, h]

theorem read_plain_append :
    ∀ (s acc rest : Str), (∀ c ∈ s, is_word_delim c = false) → delim_or_nil rest →
      read_plain (s ++ rest) acc = (acc ++ s, rest) := by
  intro s
  induction s with
  | nil =>
    intro acc rest _ hr
    rcases hr with rfl | ⟨c, rest', rfl, hc⟩
    · simp [read_plain]
    · simp [read_plain, hc]
  | cons c s ih =>
    intro acc rest hd hr
    have hc := hd c (List.mem_cons_self c s)
    rw [List.cons_append, read_plain_cons _ _ _ hc,
      ih (acc ++ [c]) rest (fun x hx => hd x (List.mem_cons_of_mem c hx)) hr]
    simp

theorem read_quoted_backslash (c : Char) (s acc : Str) :
    read_quoted ('\\' :: c :: s) acc = read_quoted s (acc ++ [c]) := rfl

theorem read_quoted_quote (s acc : Str) :
    read_quoted ('"' :: s) acc = (acc, s) := by
  conv_lhs => rw [read_quoted.eq_def]
  dsimp only
  rw [if_neg (by decide), if_pos (by decide)]

theorem read_quoted_other (c : Char) (s acc : Str) (h1 : (c == '\\') = false)
    (h2 : (c == '"') = false) :
    read_quoted (c :: s) acc = read_quoted s (acc ++ [c]) := by
  conv_lhs => rw [read_quoted.eq_def]
  dsimp only
  rw [if_neg (by simp [h1]), if_neg (by simp [h2])]

theorem read_quoted_append :
    ∀ (s acc rest : Str), read_quoted (s.flatMap esc_char ++ '"' :: rest) acc = (acc ++ s, rest) := by
  intro s
  induction s with
  | nil =>
    intro acc rest
    simp only [List.flatMap_nil, List.nil_append, read_quoted_quote, List.append_nil]
  | cons c s ih =>
    intro acc rest
    by_cases hc : is_escape_special c = true
    · rw [List.flatMap_cons, esc_char, if_pos hc, List.append_assoc, List.cons_append,
        List.cons_append, List.nil_append, read_quoted_backslash, ih (acc ++ [c]) rest]
      simp
    · have hne : (c == '\\') = false := by
        by_cases h : c = '\\'
        · subst h; exact absurd (by decide) hc
        · simpa using h
      have hnq : (c == '"') = false := by
        by_cases h : c = '"'
        · subst h; exact absurd (by decide) hc
        · simpa using h
      rw [List.flatMap_cons, esc_char, if_neg hc, List.append_assoc, List.cons_append,
        List.nil_append, read_quoted_other c _ _ hne hnq, ih (acc ++ [c]) rest]
      simp

theorem read_word_escape (s rest : Str) (hs : escape_safe s = true) (hr : delim_or_nil rest) :
    read_word (escape_string s ++ rest) = (s, rest) := by
  by_cases hq : s.any is_escape_special = true
  · have hall : s.all (fun c => !is_escape_special c) = false := by
      rcases List.any_eq_true.mp hq with ⟨c, hc, hcs⟩
      apply Bool.eq_false_iff.mpr
      intro h
      have := List.all_eq_true.mp h c hc
      simp [hcs] at this
    rw [escape_string, if_neg (by simp [hall])]
    simp only [List.cons_append, List.append_assoc, List.singleton_append]
    rw [read_word]
    rw [if_neg (by decide), if_pos (by decide)]
    exact read_quoted_append s [] rest
  · have hall : s.all (fun c => !is_escape_special c) = true := by
      rw [List.all_eq_true]
      intro c hc
      simp only [Bool.not_eq_true'] 
      by_contra h
      simp only [Bool.not_eq_false] at h
      exact hq (List.any_eq_true.mpr ⟨c, hc, h⟩)
    have hnd : s.all (fun c => !is_word_delim c) = true := by
      rcases Bool.or_eq_true_iff.mp hs with h | h
      · exact absurd h hq
      · exact h
    rw [escape_string, if_pos hall]
    cases s with
    | nil =>
      rcases hr with rfl | ⟨c, rest', rfl, hc⟩
      · rfl
      · simp [read_word, hc]
    | cons c s' =>
      have hcd : is_word_delim c = false := by
        have := List.all_eq_true.mp hnd c (List.mem_cons_self c s')
        simpa using this
      have hcs : is_escape_special c = false := by
        have := List.all_eq_true.mp hall c (List.mem_cons_self c s')
        simpa using this
      have hnq : (c == '"') = false := by
        by_contra h
        simp only [Bool.not_eq_false, beq_iff_eq] at h
        subst h
        exact absurd hcs (by decide)
      rw [List.cons_append,
        show read_word (c :: (s' ++ rest)) = read_plain (s' ++ rest) [c] from by
          simp [read_word, hcd, hnq]]
      rw [read_plain_append s' [c] rest
        (fun x hx => by
          have := List.all_eq_true.mp hnd x (List.mem_cons_of_mem c hx)
          simpa using this)
        hr]
      simp

/-- Claim C8 (corrected): for every string that is escape-safe — it either
contains one of the characters escaped by `escape_string` (then it is
emitted quoted) or contains no `read_word` delimiter (space, tab, CR, LF,
colon, NUL) — reading back the escaped form yields the string again; and
`escape_string` returns a string unchanged if and only if it contains no
special character (the five escaped ones and NUL): the quoted copy is
strictly longer than the original, so it can never coincide with it. -/
theorem C8_escape_round_trip (s : Str) :
    (escape_safe s = true → read_word (escape_string s) = (s, [])) ∧
    (escape_string s = s ↔ s.all (fun c => !is_escape_special c) = true) := by
  constructor
  · intro hs
    have := read_word_escape s [] hs (Or.inl rfl)
    simpa using this
  · constructor
    · intro he
      by_contra h
      rw [escape_string, if_neg h] at he
      have hge : ∀ t : Str, t.length ≤ (t.flatMap esc_char).length := by
        intro t
        induction t with
        | nil => simp
        | cons c cs ih =>
          rw [List.flatMap_cons, List.length_append, List.length_cons]
          have h1 : 1 ≤ (esc_char c).length := by
            unfold esc_char; split <;> simp
          omega
      have hlen := congrArg List.length he
      simp only [List.length_cons, List.length_append, List.length_nil] at hlen
      have := hge s
      omega
    · intro h
      rw [escape_string, if_pos h]

theorem C8_escape_round_trip_witness :
    (read_word (escape_string ['a', '$', ':']) = ((['a', '$', ':'] : Str), ([] : Str))) ∧
    escape_string ['a', 'b'] = ['a', 'b'] :=
  ⟨(C8_escape_round_trip ['a', '$', ':']).1 (by decide),
    (C8_escape_round_trip ['a', 'b']).2.mpr (by decide)⟩

/-- Claim C8 is false as stated: the string `a:b` contains none of the
characters escaped by `escape_string`, so it is written out raw, but
`read_word` stops at the colon and reads back only `a`. -/
theorem C8_escape_round_trip_cex :
    read_word (escape_string ['a', ':', 'b']) = ((['a'] : Str), ([':', 'b'] : Str)) ∧
    ¬ read_word (escape_string ['a', ':', 'b']) = ((['a', ':', 'b'] : Str), ([] : Str)) := by
  constructor
  · decide
  · decide

/-! ## Claim C7: dependency-database round trip -/

theorem escape_head_safe (d : Str) (hs : escape_safe d = true) (hn : d ≠ []) :
    ∃ c cs, escape_string d = c :: cs ∧ (c == ' ') = false ∧ (c == '\r') = false ∧
      (c == '\n') = false ∧ (c == nulChar) = false := by
  by_cases hq : d.all (fun c => !is_escape_special c) = true
  · have hnd : d.all (fun c => !is_word_delim c) = true := by
      rcases Bool.or_eq_true_iff.mp hs with h | h
      · rcases List.any_eq_true.mp h with ⟨c, hc, hcs⟩
        have := List.all_eq_true.mp hq c hc
        simp [hcs] at this
      · exact h
    rw [escape_string, if_pos hq]
    cases d with
    | nil => exact absurd rfl hn
    | cons c cs =>
      refine ⟨c, cs, rfl, ?_, ?_, ?_, ?_⟩ <;>
      · have := List.all_eq_true.mp hnd c (List.mem_cons_self c cs)
        simp only [Bool.not_eq_true'] at this
        by_cases h : c = ' ' <;> by_cases h2 : c = '\r' <;> by_cases h3 : c = '\n' <;>
          by_cases h4 : c = nulChar <;> simp_all [is_word_delim]
  · rw [escape_string, if_neg hq]
    exact ⟨'"', _, rfl, by decide, by decide, by decide, by decide⟩

theorem skip_spaces_cons (c : Char) (s : Str) (h : (c == ' ') = false) :
    skip_spaces (c :: s) = c :: s := by
  simp [skip_spaces, h]

theorem skip_spaces_space (s : Str) : skip_spaces (' ' :: s) = skip_spaces s := by
  simp [skip_spaces]

theorem skip_eol_cons (c : Char) (s : Str) (h1 : (c == '\r') = false)
    (h2 : (c == '\n') = false) (h3 : (c == nulChar) = false) :
    skip_eol (c :: s) = c :: s := by
  simp [skip_eol, h1, h2, h3]

theorem skip_eol_nl (s : Str) : skip_eol ('\n' :: s) = skip_eol s := by
  simp [skip_eol]

theorem read_word_delim (c : Char) (s : Str) (h : is_word_delim c = true) :
    read_word (c :: s) = ([], c :: s) := by
  simp [read_word, h]

theorem deps_stream_head (ds : List Str) (rest : Str)
    (h : ∀ d ∈ ds, escape_safe d = true ∧ d ≠ []) :
    ∃ c cs, deps_stream ds ++ '\n' :: rest = c :: cs ∧ (c == ' ') = false := by
  cases ds with
  | nil => exact ⟨'\n', rest, rfl, by decide⟩
  | cons d ds =>
    obtain ⟨hs, hn⟩ := h d (List.mem_cons_self d ds)
    obtain ⟨c, cs, he, h1, _, _, _⟩ := escape_head_safe d hs hn
    have hsplit : deps_stream (d :: ds) ++ '\n' :: rest =
        c :: (cs ++ ' ' :: (deps_stream ds ++ '\n' :: rest)) := by
      rw [deps_stream, List.flatMap_cons, he]
      simp [deps_stream]
    exact ⟨c, _, hsplit, h1⟩

theorem deps_stream_length (ds : List Str) (h : ∀ d ∈ ds, escape_safe d = true ∧ d ≠ []) :
    ds.length ≤ (deps_stream ds).length := by
  induction ds with
  | nil => simp [deps_stream]
  | cons d ds ih =>
    obtain ⟨hs, hn⟩ := h d (List.mem_cons_self d ds)
    obtain ⟨c, cs, he, _⟩ := escape_head_safe d hs hn
    have := ih fun x hx => h x (List.mem_cons_of_mem d hx)
    rw [deps_stream, List.flatMap_cons, he]
    simp only [List.length_cons, List.length_append, List.cons_append, List.length_cons]
    rw [deps_stream] at this
    omega

theorem read_deps_loop_stream (ds : List Str) :
    ∀ (fuel : Nat) (m : DepMap) (t : Str) (rest : Str),
      (∀ d ∈ ds, escape_safe d = true ∧ d ≠ []) → ds.length + 1 ≤ fuel →
      read_deps_loop fuel (deps_stream ds ++ '\n' :: rest) m t =
        (ds.foldl (fun m d => dep_insert m t d) m, '\n' :: rest) := by
  induction ds with
  | nil =>
    intro fuel m t rest _ hfuel
    obtain ⟨f, rfl⟩ : ∃ f, fuel = f + 1 := ⟨fuel - 1, by omega⟩
    have h1 : deps_stream ([] : List Str) ++ '\n' :: rest = '\n' :: rest := rfl
    rw [h1]
    simp [read_deps_loop, read_word_delim '\n' rest (by decide)]
  | cons d ds ih =>
    intro fuel m t rest hd hfuel
    obtain ⟨f, rfl⟩ : ∃ f, fuel = f + 1 := ⟨fuel - 1, by omega⟩
    obtain ⟨hs, hn⟩ := hd d (List.mem_cons_self d ds)
    have hrw : deps_stream (d :: ds) ++ '\n' :: rest =
        escape_string d ++ (' ' :: (deps_stream ds ++ '\n' :: rest)) := by
      rw [deps_stream, List.flatMap_cons]
      simp [deps_stream]
    rw [hrw]
    have hread := read_word_escape d (' ' :: (deps_stream ds ++ '\n' :: rest)) hs
      (Or.inr ⟨' ', _, rfl, by decide⟩)
    simp only [read_deps_loop, hread, hn, if_neg, skip_spaces_space]
    obtain ⟨c, cs, hds, hc⟩ := deps_stream_head ds rest
      (fun x hx => hd x (List.mem_cons_of_mem d hx))
    rw [hds, skip_spaces_cons c cs hc, ← hds,
      ih f (dep_insert m t d) t rest (fun x hx => hd x (List.mem_cons_of_mem d hx))
        (by rw [List.length_cons] at hfuel; omega)]
    simp

theorem dep_keys_cons (k : Str) (ds : List Str) (m : DepMap) :
    dep_keys ((k, ds) :: m) = k :: dep_keys m := rfl

theorem dep_insert_fresh (m : DepMap) (t d : Str) (h : t ∉ dep_keys m) :
    dep_insert m t d = m ++ [(t, [d])] := by
  induction m with
  | nil => rfl
  | cons p m ih =>
    obtain ⟨k, ds⟩ := p
    rw [dep_keys_cons] at h
    have h1 : ¬ k = t := by
      intro e
      exact h (e ▸ List.mem_cons_self k (dep_keys m))
    have h2 : t ∉ dep_keys m := fun hm => h (List.mem_cons_of_mem k hm)
    simp [dep_insert, h1, ih h2]

theorem dep_insert_last (acc : DepMap) (t d : Str) (ds : List Str)
    (h : t ∉ dep_keys acc) (hd : d ∉ ds) :
    dep_insert (acc ++ [(t, ds)]) t d = acc ++ [(t, ds ++ [d])] := by
  induction acc with
  | nil => simp [dep_insert, hd]
  | cons p acc ih =>
    obtain ⟨k, es⟩ := p
    rw [dep_keys_cons] at h
    have h1 : ¬ k = t := by
      intro e
      exact h (e ▸ List.mem_cons_self k (dep_keys acc))
    have h2 : t ∉ dep_keys acc := fun hm => h (List.mem_cons_of_mem k hm)
    simp [dep_insert, h1, ih h2]

theorem fold_dep_insert_go (t : Str) (acc : DepMap) (h : t ∉ dep_keys acc) :
    ∀ (ds pre : List Str), (pre ++ ds).Nodup →
      ds.foldl (fun m d => dep_insert m t d) (acc ++ [(t, pre)]) = acc ++ [(t, pre ++ ds)] := by
  intro ds
  induction ds with
  | nil => intro pre _; simp
  | cons d ds ih =>
    intro pre hnd
    have hdpre : d ∉ pre := by
      rcases List.nodup_append.mp hnd with ⟨_, _, hdisj⟩
      intro hmem
      exact hdisj hmem (List.mem_cons_self d ds)
    rw [List.foldl_cons, dep_insert_last acc t d pre h hdpre]
    have := ih (pre ++ [d]) (by simpa [List.append_assoc] using hnd)
    rw [this]
    simp

theorem fold_dep_insert (t : Str) (acc : DepMap) (ds : List Str)
    (h : t ∉ dep_keys acc) (hne : ds ≠ []) (hnd : ds.Nodup) :
    ds.foldl (fun m d => dep_insert m t d) acc = acc ++ [(t, ds)] := by
  cases ds with
  | nil => exact absurd rfl hne
  | cons d ds =>
    rw [List.foldl_cons, dep_insert_fresh acc t d h]
    exact fold_dep_insert_go t acc h ds [d] hnd

theorem save_head_safe (m : DepMap) (h : db_wf m) :
    save_dependencies m = [] ∨ ∃ c cs, save_dependencies m = c :: cs ∧
      (c == '\r') = false ∧ (c == '\n') = false ∧ (c == nulChar) = false := by
  cases m with
  | nil => exact Or.inl rfl
  | cons p m =>
    obtain ⟨t, ds⟩ := p
    obtain ⟨ht, htn, hdsne, _, _⟩ := h.2 (t, ds) (List.mem_cons_self _ _)
    obtain ⟨c, cs, he, _, h2, h3, h4⟩ := escape_head_safe t ht htn
    have hemp : ds.isEmpty = false := by
      cases ds with
      | nil => exact absurd rfl hdsne
      | cons a b => rfl
    have hsp : save_dependencies ((t, ds) :: m) =
        escape_string t ++ ([':', ' '] ++ (ds.flatMap fun d => escape_string d ++ [' ']) ++
          ['\n'] ++ save_dependencies m) := by
      simp only [save_dependencies, List.flatMap_cons, hemp, Bool.false_eq_true, if_false,
        save_record]
      simp [List.append_assoc]
    exact Or.inr ⟨c, _, by rw [hsp, he, List.cons_append], h2, h3, h4⟩

theorem load_loop_record (f : Nat) (t : Str) (ds : List Str) (rest : Str) (m : DepMap)
    (ht : escape_safe t = true) (htn : t ≠ [])
    (hds : ∀ d ∈ ds, escape_safe d = true ∧ d ≠ []) (hdsne : ds ≠ [])
    (hrest : rest = [] ∨ ∃ c cs, rest = c :: cs ∧ (c == '\r') = false ∧
      (c == '\n') = false ∧ (c == nulChar) = false) :
    load_loop (f + 1) (save_record t ds ++ rest) m =
      load_loop f rest (ds.foldl (fun m2 d => dep_insert m2 t d) m) := by
  have hsplit : save_record t ds ++ rest =
      escape_string t ++ (':' :: ' ' :: (deps_stream ds ++ '\n' :: rest)) := by
    rw [save_record, deps_stream]
    simp
  obtain ⟨c0, cs0, he, _⟩ := escape_head_safe t ht htn
  have hne : (save_record t ds ++ rest).isEmpty = false := by
    rw [hsplit, he]
    rfl
  have hread : read_word (save_record t ds ++ rest) =
      (t, ':' :: ' ' :: (deps_stream ds ++ '\n' :: rest)) := by
    rw [hsplit]
    exact read_word_escape t _ ht (Or.inr ⟨':', _, rfl, by decide⟩)
  have hs2len : ds.length + 1 ≤ (' ' :: (deps_stream ds ++ '\n' :: rest)).length + 1 := by
    have := deps_stream_length ds hds
    simp only [List.length_cons, List.length_append]
    omega
  obtain ⟨c1, cs1, hds1, hc1⟩ := deps_stream_head ds rest hds
  have hskip : skip_spaces (' ' :: (deps_stream ds ++ '\n' :: rest)) =
      deps_stream ds ++ '\n' :: rest := by
    rw [skip_spaces_space, hds1, skip_spaces_cons c1 cs1 hc1]
  have hdeps := read_deps_loop_stream ds ((' ' :: (deps_stream ds ++ '\n' :: rest)).length + 1)
    m t rest hds hs2len
  have heol : skip_eol ('\n' :: rest) = rest := by
    rw [skip_eol_nl]
    rcases hrest with rfl | ⟨c2, cs2, rfl, hr1, hr2, hr3⟩
    · rfl
    · exact skip_eol_cons c2 cs2 hr1 hr2 hr3
  simp only [load_loop, hne, Bool.false_eq_true, if_false, hread, htn, hskip, hdeps, heol]

theorem load_save_round_trip (m : DepMap) :
    ∀ (acc : DepMap) (f : Nat), db_wf m →
      (∀ k ∈ dep_keys m, k ∉ dep_keys acc) →
      (save_dependencies m).length + 1 ≤ f →
      load_loop f (save_dependencies m) acc = some (acc ++ m) := by
  induction m with
  | nil =>
    intro acc f _ _ hf
    obtain ⟨f', rfl⟩ : ∃ f', f = f' + 1 := ⟨f - 1, by omega⟩
    simp [load_loop, save_dependencies]
  | cons p m ih =>
    intro acc f hwf hdisj hf
    obtain ⟨t, ds⟩ := p
    obtain ⟨ht, htn, hdsne, hdsnd, hds⟩ := hwf.2 (t, ds) (List.mem_cons_self _ _)
    have hemp : ds.isEmpty = false := by
      cases ds with
      | nil => exact absurd rfl hdsne
      | cons a b => rfl
    have hsave : save_dependencies ((t, ds) :: m) = save_record t ds ++ save_dependencies m := by
      simp only [save_dependencies, List.flatMap_cons, hemp, Bool.false_eq_true, if_false]
    obtain ⟨f', rfl⟩ : ∃ f', f = f' + 1 := ⟨f - 1, by omega⟩
    rw [hsave]
    have hkeys : (t :: dep_keys m).Nodup := by
      rw [← dep_keys_cons t ds m]
      exact hwf.1
    have hwfm : db_wf m :=
      ⟨(List.nodup_cons.mp hkeys).2, fun q hq => hwf.2 q (List.mem_cons_of_mem _ hq)⟩
    have htm : t ∉ dep_keys m := (List.nodup_cons.mp hkeys).1
    rw [load_loop_record f' t ds (save_dependencies m) acc ht htn hds hdsne
      (save_head_safe m hwfm)]
    rw [fold_dep_insert t acc ds
      (hdisj t (by rw [dep_keys_cons]; exact List.mem_cons_self _ _)) hdsne hdsnd]
    have hreclen : 1 ≤ (save_record t ds).length := by
      rw [save_record]
      simp
      omega
    rw [hsave] at hf
    rw [List.length_append] at hf
    rw [ih (acc ++ [(t, ds)]) f' hwfm ?_ (by omega)]
    · rw [List.append_assoc]
      rfl
    · intro k hk
      have hka : k ∉ dep_keys acc := hdisj k (by rw [dep_keys_cons]; exact List.mem_cons_of_mem _ hk)
      have hkt : k ≠ t := fun e => htm (e ▸ hk)
      rw [dep_keys, List.map_append]
      rw [List.mem_append]
      rintro (h1 | h1)
      · exact hka h1
      · simp only [dep_keys, List.map_cons, List.map_nil] at h1
        simp only [List.mem_singleton] at h1
        exact hkt h1

/-- Claim C7 (corrected): saving and re-loading is the identity on every
well-formed in-memory dependency map — distinct keys, all strings
non-empty and escape-safe (each contains an escaped character or no word
delimiter), dependency sets non-empty with distinct members; and an entry
with an empty dependency set produces no record in the file.  Without the
escape-safety restriction the round trip fails (see the counterexample: a
key consisting of a colon is written raw and the loader stops at it). -/
theorem C7_db_round_trip (m : DepMap) (h : db_wf m) :
    load_dependencies (save_dependencies m) = some m ∧
    ∀ (t : Str) (m2 : DepMap), save_dependencies ((t, []) :: m2) = save_dependencies m2 := by
  constructor
  · rw [load_dependencies]
    have := load_save_round_trip m [] ((save_dependencies m).length + 1) h
      (by intro k _ hk; cases hk) (le_refl _)
    simpa using this
  · intro t m2
    simp [save_dependencies]

theorem C7_db_round_trip_witness :
    db_wf [(['a'], [['b'], ['c', '!', 'd']])] ∧
    (load_dependencies (save_dependencies [(['a'], [['b'], ['c', '!', 'd']])]) =
        some [(['a'], [['b'], ['c', '!', 'd']])] ∧
      ∀ (t : Str) (m2 : DepMap), save_dependencies ((t, []) :: m2) = save_dependencies m2) :=
  ⟨⟨by decide, by decide⟩,
    C7_db_round_trip [(['a'], [['b'], ['c', '!', 'd']])] ⟨by decide, by decide⟩⟩

/-- Claim C7 is false as stated: the map sending the key `:` to the
non-empty set containing `a` is saved as the record `:: a \n`, on which the
loader immediately reads an empty target word and stops, yielding the
empty map. -/
theorem C7_db_round_trip_cex :
    load_dependencies (save_dependencies [(([':'] : Str), [(['a'] : Str)])]) = some [] ∧
    load_dependencies (save_dependencies [(([':'] : Str), [(['a'] : Str)])]) ≠
      some [(([':'] : Str), [(['a'] : Str)])] :=
  ⟨by decide, by decide⟩

/-! ## Claim C1: `get_status` memoized freshness -/

theorem check_preserves_of (eval : StatusMap → Str → status_t × StatusMap)
    (heval : ∀ (s : StatusMap) (t x : Str) (v : status_t),
      lookupS s x = some v → lookupS (eval s t).2 x = some v) :
    ∀ (ds : List Str) (m : Int) (s : StatusMap) (x : Str) (v : status_t),
      lookupS s x = some v → lookupS (check_deps_w eval ds m s).2 x = some v := by
  intro ds
  induction ds with
  | nil => intro m s x v hx; exact hx
  | cons d ds ih =>
    intro m s x v hx
    simp only [check_deps_w]
    split
    · exact heval s d x v hx
    · exact ih m (eval s d).2 x v (heval s d x v hx)

theorem status_preserves (fs : FileTimes) (dm : Str → List Str) :
    ∀ fuel : Nat,
      ∀ (s : StatusMap) (t x : Str) (v : status_t),
        lookupS s x = some v → lookupS (get_status fs dm fuel s t).2 x = some v := by
  intro fuel
  induction fuel with
  | zero =>
    intro s t x v hx
    cases hlt : lookupS s t with
    | some w => simp [get_status, hlt, hx]
    | none =>
      simp only [get_status, hlt]
      by_cases hxt : x = t
      · subst hxt
        rw [hx] at hlt
        cases hlt
      · rw [lookupS_setS_other _ _ _ _ hxt]
        exact hx
  | succ f ihf =>
    intro s t x v hx
    cases hlt : lookupS s t with
    | some w => simp [get_status, hlt, hx]
    | none =>
      have hxt : ¬ x = t := by
        intro e
        subst e
        rw [hx] at hlt
        cases hlt
      cases hft : fs t with
      | none =>
        simp only [get_status, hlt, hft]
        rw [lookupS_setS_other _ _ _ _ hxt, lookupS_setS_other _ _ _ _ hxt]
        exact hx
      | some m =>
        simp only [get_status, hlt, hft]
        have h1 : lookupS (setS s t ⟨.Uptodate, 0⟩) x = some v := by
          rw [lookupS_setS_other _ _ _ _ hxt]
          exact hx
        have h2 := check_preserves_of (fun s2 d => get_status fs dm f s2 d)
          (fun s2 d x2 v2 hx2 => ihf s2 d x2 v2 hx2) (dm t) m (setS s t ⟨.Uptodate, 0⟩) x v h1
        split <;> · rw [lookupS_setS_other _ _ _ _ hxt]; exact h2

theorem get_status_lookup_self (fs : FileTimes) (dm : Str → List Str)
    (fuel : Nat) (s : StatusMap) (t : Str) :
    lookupS (get_status fs dm fuel s t).2 t = some (get_status fs dm fuel s t).1 := by
  cases hlt : lookupS s t with
  | some w => cases fuel <;> simp [get_status, hlt]
  | none =>
    cases fuel with
    | zero => simp [get_status, hlt, lookupS_setS_self]
    | succ f =>
      cases hft : fs t with
      | none => simp [get_status, hlt, hft, lookupS_setS_self]
      | some m =>
        simp only [get_status, hlt, hft]
        split <;> simp [lookupS_setS_self]

theorem check_deps_w_false_iff (fs : FileTimes) (dm : Str → List Str) (fuel : Nat) :
    ∀ (ds : List Str) (m : Int) (s : StatusMap),
      ((check_deps_w (fun s2 d => get_status fs dm fuel s2 d) ds m s).1 = false ↔
        ∀ d ∈ ds, ∃ v,
          lookupS (check_deps_w (fun s2 d => get_status fs dm fuel s2 d) ds m s).2 d = some v ∧
          v.status = .Uptodate ∧ v.last ≤ m) := by
  intro ds
  induction ds with
  | nil => simp [check_deps_w]
  | cons d ds ih =>
    intro m s
    by_cases hbad : (get_status fs dm fuel s d).1.status ≠ .Uptodate ∨
        m < (get_status fs dm fuel s d).1.last
    · have hc : check_deps_w (fun s2 d => get_status fs dm fuel s2 d) (d :: ds) m s =
          (true, (get_status fs dm fuel s d).2) := by
        simp only [check_deps_w]
        rw [if_pos hbad]
      rw [hc]
      apply iff_of_false
      · simp
      · intro hall
        obtain ⟨v, hv, hvs, hvl⟩ := hall d (List.mem_cons_self d ds)
        rw [get_status_lookup_self] at hv
        injection hv with hv
        rw [← hv] at hvs hvl
        rcases hbad with hb | hb
        · exact hb hvs
        · omega
    · have hgood1 : (get_status fs dm fuel s d).1.status = .Uptodate := by
        by_contra h
        exact hbad (Or.inl h)
      have hgood2 : (get_status fs dm fuel s d).1.last ≤ m := by
        by_contra h
        exact hbad (Or.inr (by omega))
      have hc : check_deps_w (fun s2 d => get_status fs dm fuel s2 d) (d :: ds) m s =
          check_deps_w (fun s2 d => get_status fs dm fuel s2 d) ds m
            (get_status fs dm fuel s d).2 := by
        simp only [check_deps_w]
        rw [if_neg hbad]
      rw [hc, ih m (get_status fs dm fuel s d).2]
      constructor
      · intro hall x hx
        rcases List.mem_cons.mp hx with rfl | hx2
        · refine ⟨(get_status fs dm fuel s x).1, ?_, hgood1, hgood2⟩
          exact check_preserves_of _ (fun s2 d2 x2 v2 hx2 => status_preserves fs dm fuel s2 d2 x2 v2 hx2)
            ds m _ x _ (get_status_lookup_self fs dm fuel s x)
        · exact hall x hx2
      · intro hall x hx
        exact hall x (List.mem_cons_of_mem d hx)

theorem get_status_fresh_some (fs : FileTimes) (dm : Str → List Str) (f : Nat)
    (s : StatusMap) (t : Str) (m : Int) (hfresh : lookupS s t = none) (hft : fs t = some m) :
    get_status fs dm (f + 1) s t =
      (if (check_deps_w (fun s2 d => get_status fs dm f s2 d) (dm t) m
            (setS s t ⟨.Uptodate, 0⟩)).1
       then (⟨.Todo, 0⟩,
         setS (check_deps_w (fun s2 d => get_status fs dm f s2 d) (dm t) m
           (setS s t ⟨.Uptodate, 0⟩)).2 t ⟨.Todo, 0⟩)
       else (⟨.Uptodate, m⟩,
         setS (check_deps_w (fun s2 d => get_status fs dm f s2 d) (dm t) m
           (setS s t ⟨.Uptodate, 0⟩)).2 t ⟨.Uptodate, m⟩)) := by
  simp [get_status, hfresh, hft]

/-- Claim C1: on its first inspection of a target (no cached entry),
`get_status` returns `Todo` when `stat` fails; otherwise it returns
`Todo` exactly when some recorded dependency ends up with a status other
than `Uptodate` or a modification time strictly greater than the target's,
and `Uptodate` carrying the observed modification time otherwise (the
dependency statuses are read off the cache `get_status` leaves behind);
and every subsequent inspection returns the memoized value with the cache
unchanged. -/
theorem C1_get_status (fs : FileTimes) (dm : Str → List Str) (fuel : Nat) (s : StatusMap)
    (t : Str) (hfresh : lookupS s t = none) (hfuel : 1 ≤ fuel) :
    (fs t = none → (get_status fs dm fuel s t).1 = ⟨.Todo, 0⟩) ∧
    (∀ m : Int, fs t = some m →
      ((get_status fs dm fuel s t).1 = ⟨.Todo, 0⟩ ∨
        (get_status fs dm fuel s t).1 = ⟨.Uptodate, m⟩) ∧
      ((get_status fs dm fuel s t).1 = ⟨.Uptodate, m⟩ ↔
        ∀ d ∈ dm t, ∃ v, lookupS (get_status fs dm fuel s t).2 d = some v ∧
          v.status = .Uptodate ∧ v.last ≤ m)) ∧
    (∀ fuel2 : Nat, get_status fs dm fuel2 (get_status fs dm fuel s t).2 t =
      ((get_status fs dm fuel s t).1, (get_status fs dm fuel s t).2)) := by
  obtain ⟨f, rfl⟩ : ∃ f, fuel = f + 1 := ⟨fuel - 1, by omega⟩
  refine ⟨?_, ?_, ?_⟩
  · intro hft
    simp [get_status, hfresh, hft]
  · intro m hft
    rw [get_status_fresh_some fs dm f s t m hfresh hft]
    have hcc := check_deps_w_false_iff fs dm f (dm t) m (setS s t ⟨.Uptodate, 0⟩)
    by_cases hc : (check_deps_w (fun s2 d => get_status fs dm f s2 d) (dm t) m
        (setS s t ⟨.Uptodate, 0⟩)).1 = true
    · rw [if_pos hc]
      refine ⟨Or.inl rfl, iff_of_false (by simp) ?_⟩
      intro hall
      have hnall : ¬ ∀ d ∈ dm t, ∃ v,
          lookupS (check_deps_w (fun s2 d => get_status fs dm f s2 d) (dm t) m
            (setS s t ⟨.Uptodate, 0⟩)).2 d = some v ∧
          v.status = .Uptodate ∧ v.last ≤ m := by
        intro hgood
        have := hcc.mpr hgood
        rw [hc] at this
        cases this
      apply hnall
      intro d hd
      by_cases hdt : d = t
      · subst hdt
        obtain ⟨v, hv, hvs, hvl⟩ := hall d hd
        rw [lookupS_setS_self] at hv
        injection hv with hv
        rw [← hv] at hvs
        cases hvs
      · obtain ⟨v, hv, hvs, hvl⟩ := hall d hd
        rw [lookupS_setS_other _ _ _ _ hdt] at hv
        exact ⟨v, hv, hvs, hvl⟩
    · have hcf : (check_deps_w (fun s2 d => get_status fs dm f s2 d) (dm t) m
          (setS s t ⟨.Uptodate, 0⟩)).1 = false := by
        revert hc
        cases (check_deps_w (fun s2 d => get_status fs dm f s2 d) (dm t) m
          (setS s t ⟨.Uptodate, 0⟩)).1 <;> simp
      rw [if_neg hc]
      refine ⟨Or.inr rfl, iff_of_true rfl ?_⟩
      intro d hd
      by_cases hdt : d = t
      · subst hdt
        exact ⟨⟨.Uptodate, m⟩, lookupS_setS_self _ _ _, rfl, le_refl m⟩
      · obtain ⟨v, hv, hvs, hvl⟩ := hcc.mp hcf d hd
        rw [lookupS_setS_other _ _ _ _ hdt]
        exact ⟨v, hv, hvs, hvl⟩
  · intro fuel2
    have hm1 := get_status_lookup_self fs dm (f + 1) s t
    revert hm1
    generalize get_status fs dm (f + 1) s t = p
    intro hm1
    cases fuel2 <;> simp [get_status, hm1]

theorem C1_get_status_witness :
    (lookupS ([] : StatusMap) ['a'] = none ∧ 1 ≤ 1) ∧
    (((fun _ => none : FileTimes) ['a'] = none →
        (get_status (fun _ => none) (fun _ => []) 1 [] ['a']).1 = ⟨.Todo, 0⟩) ∧
      (∀ m : Int, (fun _ => none : FileTimes) ['a'] = some m →
        ((get_status (fun _ => none) (fun _ => []) 1 [] ['a']).1 = ⟨.Todo, 0⟩ ∨
          (get_status (fun _ => none) (fun _ => []) 1 [] ['a']).1 = ⟨.Uptodate, m⟩) ∧
        ((get_status (fun _ => none) (fun _ => []) 1 [] ['a']).1 = ⟨.Uptodate, m⟩ ↔
          ∀ d ∈ (fun _ => ([] : List Str)) ['a'], ∃ v,
            lookupS (get_status (fun _ => none) (fun _ => []) 1 [] ['a']).2 d = some v ∧
            v.status = .Uptodate ∧ v.last ≤ m)) ∧
      (∀ fuel2 : Nat,
        get_status (fun _ => none) (fun _ => []) fuel2
            (get_status (fun _ => none) (fun _ => []) 1 [] ['a']).2 ['a'] =
          ((get_status (fun _ => none) (fun _ => []) 1 [] ['a']).1,
            (get_status (fun _ => none) (fun _ => []) 1 [] ['a']).2))) :=
  ⟨⟨rfl, by decide⟩, C1_get_status (fun _ => none) (fun _ => []) 1 [] ['a'] rfl (by decide)⟩

/-! ## Claims C2 and C3: the rule matcher -/

theorem takeWhile_length_lt_of_mem (j : Str) (h : '%' ∈ j) :
    (j.takeWhile (fun c => c != '%')).length < j.length := by
  induction j with
  | nil => cases h
  | cons c j ih =>
    by_cases hc : c = '%'
    · subst hc
      simp [List.takeWhile_cons]
    · have hcb : (c != '%') = true := by simpa using hc
      have h2 : '%' ∈ j := by
        rcases List.mem_cons.mp h with he | h2
        · exact absurd he.symm hc
        · exact h2
      simp only [List.takeWhile_cons, hcb, if_pos, List.length_cons]
      have := ih h2
      omega

theorem pattern_stem_length (t j st : Str) (h : pattern_stem? t j = some st) :
    '%' ∈ j ∧ j.length ≤ t.length ∧ st.length = t.length - (j.length - 1) := by
  by_cases hpc : '%' ∈ j
  · rw [pattern_stem?, if_pos hpc] at h
    simp only at h
    split at h
    · next hcond =>
      injection h with h
      refine ⟨hpc, hcond.1, ?_⟩
      rw [← h]
      have hpos := takeWhile_length_lt_of_mem j hpc
      rw [List.length_take, List.length_drop]
      omega
    · cases h
  · rw [pattern_stem?, if_neg hpc] at h
    cases h

theorem scan_targets_nongeneric (r : rule_t) (t : Str) (hg : r.generic = false) :
    ∀ (js : List Str) (plen : Nat) (best : rule_t),
      scan_targets r t js plen best =
        if t ∈ js then .exact r else .cont plen best := by
  intro js
  induction js with
  | nil => intro plen best; simp [scan_targets]
  | cons j js ih =>
    intro plen best
    simp only [scan_targets]
    rw [if_pos hg]
    by_cases hj : j = t
    · rw [if_pos hj, if_pos (by rw [hj]; exact List.mem_cons_self t js)]
    · rw [if_neg hj, ih plen best]
      by_cases hm : t ∈ js
      · rw [if_pos hm, if_pos (List.mem_cons_of_mem j hm)]
      · rw [if_neg hm, if_neg (by
          intro hc
          rcases List.mem_cons.mp hc with he | h2
          · exact hj he.symm
          · exact hm h2)]

theorem scan_targets_generic_single (r : rule_t) (j t : Str) (plen : Nat) (best : rule_t)
    (hg : r.generic = true) :
    scan_targets r t [j] plen best =
      match pattern_stem? t j with
      | some st =>
        if st.length < plen then .cont st.length (instantiate_rule r st) else .cont plen best
      | none => .cont plen best := by
  simp only [scan_targets]
  rw [if_neg (by simp [hg])]
  by_cases h1 : t.length < j.length
  · rw [if_pos h1]
    by_cases hpc : '%' ∈ j
    · rw [pattern_stem?, if_pos hpc]
      simp only
      rw [if_neg (by intro hco; omega)]
    · rw [pattern_stem?, if_neg hpc]
  · rw [if_neg h1]
    by_cases h2 : plen ≤ t.length - (j.length - 1)
    · rw [if_pos h2]
      cases hst : pattern_stem? t j with
      | none => rfl
      | some st =>
        obtain ⟨_, hle, hlen⟩ := pattern_stem_length t j st hst
        show scan_result.cont plen best =
          if st.length < plen then scan_result.cont st.length (instantiate_rule r st)
          else scan_result.cont plen best
        rw [if_neg (by omega)]
    · rw [if_neg h2]
      by_cases hpc : '%' ∈ j
      · rw [if_neg (fun h => h hpc)]
        by_cases h3 : j.take ((j.takeWhile (fun c => c != '%')).length) =
            t.take ((j.takeWhile (fun c => c != '%')).length) ∧
            j.drop ((j.takeWhile (fun c => c != '%')).length + 1) =
            t.drop (t.length - (j.length - ((j.takeWhile (fun c => c != '%')).length + 1)))
        · rw [if_pos h3]
          have hst : pattern_stem? t j =
              some ((t.drop ((j.takeWhile (fun c => c != '%')).length)).take
                (t.length - (j.length - 1))) := by
            rw [pattern_stem?, if_pos hpc]
            simp only
            rw [if_pos ⟨by omega, h3.1, h3.2⟩]
          obtain ⟨_, hle, hlen⟩ := pattern_stem_length t j _ hst
          rw [hst]
          show scan_result.cont (t.length - (j.length - 1))
              (instantiate_rule r ((t.drop ((j.takeWhile (fun c => c != '%')).length)).take
                (t.length - (j.length - 1)))) =
            if ((t.drop ((j.takeWhile (fun c => c != '%')).length)).take
                (t.length - (j.length - 1))).length < plen
            then scan_result.cont ((t.drop ((j.takeWhile (fun c => c != '%')).length)).take
                (t.length - (j.length - 1))).length
              (instantiate_rule r ((t.drop ((j.takeWhile (fun c => c != '%')).length)).take
                (t.length - (j.length - 1))))
            else scan_result.cont plen best
          rw [if_pos (by omega), hlen]
        · rw [if_neg h3]
          have hst : pattern_stem? t j = none := by
            rw [pattern_stem?, if_pos hpc]
            simp only
            rw [if_neg (by
              intro hco
              exact h3 ⟨hco.2.1, hco.2.2⟩)]
          rw [hst]
      · rw [if_pos hpc]
        rw [pattern_stem?, if_neg hpc]

theorem generic_candidates_cons_nongeneric (r : rule_t) (rs : List rule_t) (t : Str)
    (hg : r.generic = false) :
    generic_candidates (r :: rs) t = generic_candidates rs t := by
  simp [generic_candidates, hg]

theorem generic_candidates_cons_generic (r : rule_t) (rs : List rule_t) (t j : Str)
    (hg : r.generic = true) (hj : r.targets = [j]) :
    generic_candidates (r :: rs) t =
      (match pattern_stem? t j with
       | some st => [(st.length, instantiate_rule r st)]
       | none => []) ++ generic_candidates rs t := by
  simp [generic_candidates, hg, hj]

theorem find_rule_aux_spec (t : Str) :
    ∀ (rs : List rule_t) (plen : Nat) (best : rule_t),
      (∀ r ∈ rs, r.generic = true → ∃ j, r.targets = [j]) →
      find_rule_aux t rs plen best =
        match rs.find? (fun r => !r.generic && decide (t ∈ r.targets)) with
        | some r => r
        | none =>
          ((generic_candidates rs t).foldl
            (fun b c => if c.1 < b.1 then c else b) (plen, best)).2 := by
  intro rs
  induction rs with
  | nil => intro plen best _; rfl
  | cons r rs ih =>
    intro plen best h1
    cases hg : r.generic with
    | false =>
      simp only [find_rule_aux]
      rw [scan_targets_nongeneric r t hg r.targets plen best]
      by_cases hm : t ∈ r.targets
      · rw [if_pos hm, List.find?_cons_of_pos _ (by simp [hg, hm])]
      · rw [if_neg hm, List.find?_cons_of_neg _ (by simp [hg, hm]),
          generic_candidates_cons_nongeneric r rs t hg]
        exact ih plen best fun q hq => h1 q (List.mem_cons_of_mem r hq)
    | true =>
      obtain ⟨j, hj⟩ := h1 r (List.mem_cons_self r rs) hg
      simp only [find_rule_aux, hj]
      rw [scan_targets_generic_single r j t plen best hg,
        List.find?_cons_of_neg _ (by simp [hg]),
        generic_candidates_cons_generic r rs t j hg hj]
      have hrest : ∀ q ∈ rs, q.generic = true → ∃ j2, q.targets = [j2] :=
        fun q hq => h1 q (List.mem_cons_of_mem r hq)
      cases hst : pattern_stem? t j with
      | none =>
        dsimp only
        rw [List.nil_append]
        exact ih plen best hrest
      | some st =>
        dsimp only
        by_cases hlt : st.length < plen
        · rw [if_pos hlt, List.singleton_append, List.foldl_cons, if_pos hlt]
          exact ih st.length (instantiate_rule r st) hrest
        · rw [if_neg hlt, List.singleton_append, List.foldl_cons, if_neg hlt]
          exact ih plen best hrest

theorem foldl_better_some (cs : List (Nat × rule_t)) :
    ∀ seed : Nat × rule_t,
      cs.foldl (fun acc c => match acc with
        | none => some c
        | some b => if c.1 < b.1 then some c else some b) (some seed) =
      some (cs.foldl (fun b c => if c.1 < b.1 then c else b) seed) := by
  induction cs with
  | nil => intro seed; rfl
  | cons c cs ih =>
    intro seed
    rw [List.foldl_cons, List.foldl_cons]
    by_cases h : c.1 < seed.1
    · rw [show (match some seed with
          | none => some c
          | some b => if c.1 < b.1 then some c else some b) =
            if c.1 < seed.1 then some c else some seed from rfl,
        if_pos h, if_pos h]
      exact ih c
    · rw [show (match some seed with
          | none => some c
          | some b => if c.1 < b.1 then some c else some b) =
            if c.1 < seed.1 then some c else some seed from rfl,
        if_neg h, if_neg h]
      exact ih seed

theorem pick_shortest_foldl (cs : List (Nat × rule_t)) (h : ∀ c ∈ cs, c.1 < 10000) :
    (cs.foldl (fun b c => if c.1 < b.1 then c else b) ((10000 : Nat), ({} : rule_t))).2 =
      match pick_shortest cs with
      | some c => c.2
      | none => {} := by
  cases cs with
  | nil => rfl
  | cons c cs =>
    rw [List.foldl_cons]
    have hc : c.1 < (10000, ({} : rule_t)).1 := h c (List.mem_cons_self c cs)
    rw [if_pos hc]
    rw [show pick_shortest (c :: cs) = cs.foldl (fun acc c => match acc with
      | none => some c
      | some b => if c.1 < b.1 then some c else some b) (some c) from rfl]
    rw [foldl_better_some cs c]

theorem generic_candidates_stem_lt (rules : List rule_t) (t : Str) (h : t.length < 10000) :
    ∀ c ∈ generic_candidates rules t, c.1 < 10000 := by
  intro c hc
  rw [generic_candidates] at hc
  rcases List.mem_flatMap.mp hc with ⟨r, hr, hcr⟩
  split at hcr
  · split at hcr
    · split at hcr
      · rename_i st hst
        rcases List.mem_singleton.mp hcr with rfl
        obtain ⟨_, hle, hlen⟩ := pattern_stem_length t _ st hst
        simp only
        omega
      · cases hcr
    · cases hcr
  · cases hcr

/-- Claim C2 (corrected): when every generic rule has a single target
pattern and the target is shorter than 10000 characters, `find_rule`
returns the first non-generic rule listing the target verbatim, as is; and
otherwise the instantiation of the generic rule with the shortest stem,
ties broken by first occurrence in source order.  (With longer targets the
matcher's initial best-stem sentinel of 10000 silently discards matches,
and inside a multi-pattern generic rule only the first pattern improving
the current best is ever considered.) -/
theorem C2_find_rule (rules : List rule_t) (t : Str)
    (h1 : ∀ r ∈ rules, r.generic = true → ∃ j, r.targets = [j])
    (h2 : t.length < 10000) :
    find_rule rules t =
      match rules.find? (fun r => !r.generic && decide (t ∈ r.targets)) with
      | some r => r
      | none =>
        match pick_shortest (generic_candidates rules t) with
        | some c => c.2
        | none => {} := by
  rw [find_rule, find_rule_aux_spec t rules 10000 {} h1]
  cases hf : rules.find? (fun r => !r.generic && decide (t ∈ r.targets)) with
  | some r => rfl
  | none =>
    dsimp only
    exact pick_shortest_foldl (generic_candidates rules t)
      (generic_candidates_stem_lt rules t h2)

theorem C2_find_rule_witness :
    ((∀ r ∈ [({ generic := false, targets := [['a']] } : rule_t),
        { generic := true, targets := [['%']] }], r.generic = true → ∃ j, r.targets = [j]) ∧
      (['a'] : Str).length < 10000) ∧
    find_rule [({ generic := false, targets := [['a']] } : rule_t),
        { generic := true, targets := [['%']] }] ['a'] =
      match [({ generic := false, targets := [['a']] } : rule_t),
          { generic := true, targets := [['%']] }].find?
          (fun r => !r.generic && decide ((['a'] : Str) ∈ r.targets)) with
      | some r => r
      | none =>
        match pick_shortest (generic_candidates
            [({ generic := false, targets := [['a']] } : rule_t),
              { generic := true, targets := [['%']] }] ['a']) with
        | some c => c.2
        | none => {} := by
  have h1 : ∀ r ∈ [({ generic := false, targets := [['a']] } : rule_t),
      { generic := true, targets := [['%']] }], r.generic = true → ∃ j, r.targets = [j] := by
    intro r hr hg
    rcases List.mem_cons.mp hr with rfl | hr2
    · cases hg
    · rcases List.mem_cons.mp hr2 with rfl | hr3
      · exact ⟨['%'], rfl⟩
      · cases hr3
  exact ⟨⟨h1, by decide⟩, C2_find_rule _ _ h1 (by decide)⟩

theorem replicate_stem :
    pattern_stem? (List.replicate 10000 'a') ['%'] = some (List.replicate 10000 'a') := by
  rw [pattern_stem?, if_pos (show '%' ∈ (['%'] : Str) by decide)]
  simp only [List.length_replicate, List.take_replicate, List.drop_replicate,
    show ((['%'] : Str).takeWhile (fun c => c != '%')).length = 0 from rfl,
    show (['%'] : Str).length = 1 from rfl,
    show (['%'] : Str).take 0 = [] from rfl,
    show (['%'] : Str).drop (0 + 1) = [] from rfl,
    List.replicate_zero, Nat.sub_self, Nat.sub_zero, Nat.min_self]
  norm_num

/-- Claim C2 is false as stated: with the single generic rule for the
pattern `%` and a target of 10000 characters, the pattern matches (even
under the code's own per-pattern test), yet `find_rule` returns the null
rule with no targets — the best-stem accumulator starts at 10000 and only
strictly shorter stems are accepted. -/
theorem C2_find_rule_cex :
    pattern_stem? (List.replicate 10000 'a') ['%'] = some (List.replicate 10000 'a') ∧
    (find_rule [{ generic := true, targets := [['%']] }]
      (List.replicate 10000 'a')).targets = [] := by
  refine ⟨replicate_stem, ?_⟩
  rw [find_rule]
  simp only [find_rule_aux]
  rw [scan_targets_generic_single _ ['%'] _ 10000 _ rfl, replicate_stem]
  dsimp only
  rw [if_neg (by rw [List.length_replicate]; omega)]

theorem percent_decomp (j : Str) (hpc : '%' ∈ j) :
    j = j.takeWhile (fun c => c != '%') ++ '%' :: (j.dropWhile (fun c => c != '%')).drop 1 := by
  induction j with
  | nil => cases hpc
  | cons c j ih =>
    by_cases hc : c = '%'
    · subst hc
      simp [List.takeWhile_cons, List.dropWhile_cons]
    · have hcb : (c != '%') = true := by simpa using hc
      have h2 : '%' ∈ j := by
        rcases List.mem_cons.mp hpc with he | h2
        · exact absurd he.symm hc
        · exact h2
      simp only [List.takeWhile_cons, List.dropWhile_cons, hcb, if_pos, List.cons_append]
      exact congrArg (c :: ·) (ih h2)

/-- Claim C3 (corrected): for a generic rule with the single pattern
`P = prefix % suffix`, `find_rule` (target shorter than the 10000
best-stem sentinel) instantiates the rule exactly when
`len(target) ≥ len(prefix)+len(suffix)+1` and the target begins with the
prefix and ends with the suffix: the stem must be non-empty (the code
skips any pattern with `target.length < pattern.length`, and a pattern of
length `len(prefix)+len(suffix)+1` needs a character for the `%`).  A
target of length exactly `len(prefix)+len(suffix)` is not matched. -/
theorem C3_empty_stem (r : rule_t) (j t : Str) (hg : r.generic = true)
    (hj : r.targets = [j]) (hpc : '%' ∈ j) (h2 : t.length < 10000) :
    (find_rule [r] t = match pattern_stem? t j with
      | some st => instantiate_rule r st
      | none => {}) ∧
    (pattern_stem? t j ≠ none ↔
      (j.takeWhile (fun c => c != '%')).length +
        ((j.dropWhile (fun c => c != '%')).drop 1).length + 1 ≤ t.length ∧
      t.take (j.takeWhile (fun c => c != '%')).length = j.takeWhile (fun c => c != '%') ∧
      t.drop (t.length - ((j.dropWhile (fun c => c != '%')).drop 1).length) =
        (j.dropWhile (fun c => c != '%')).drop 1) := by
  constructor
  · rw [find_rule]
    simp only [find_rule_aux, hj]
    rw [scan_targets_generic_single r j t 10000 {} hg]
    cases hst : pattern_stem? t j with
    | none => rfl
    | some st =>
      obtain ⟨_, hle, hlen⟩ := pattern_stem_length t j st hst
      dsimp only
      rw [if_pos (by omega)]
  · set pre := j.takeWhile (fun c => c != '%') with hpre
    set suf := (j.dropWhile (fun c => c != '%')).drop 1 with hsuf
    have hdec : j = pre ++ '%' :: suf := by
      rw [hpre, hsuf]
      exact percent_decomp j hpc
    have hjlen : j.length = pre.length + suf.length + 1 := by
      conv_lhs => rw [hdec]
      simp only [List.length_append, List.length_cons]
      omega
    have hjtake : j.take pre.length = pre := by
      conv_lhs => rw [hdec]
      exact List.take_left pre ('%' :: suf)
    have hjdrop : j.drop (pre.length + 1) = suf := by
      have h3 : j = (pre ++ ['%']) ++ suf := by
        rw [hdec]
        simp
      have h4 : pre.length + 1 = (pre ++ ['%']).length := by simp
      rw [h4]
      conv_lhs => rw [h3]
      exact List.drop_left _ _
    rw [pattern_stem?, if_pos hpc]
    simp only [← hpre]
    rw [show j.length - ((pre.length) + 1) = suf.length from by omega]
    rw [hjtake, hjdrop]
    by_cases hcond : j.length ≤ t.length ∧ pre = t.take pre.length ∧
        suf = t.drop (t.length - suf.length)
    · rw [if_pos hcond]
      exact iff_of_true (Option.some_ne_none _)
        ⟨by omega, hcond.2.1.symm, hcond.2.2.symm⟩
    · rw [if_neg hcond]
      exact iff_of_false (fun h => h rfl)
        (fun hx => hcond ⟨by omega, hx.2.1.symm, hx.2.2.symm⟩)

theorem C3_empty_stem_witness :
    (({ generic := true, targets := [['a', '%', 'b']] } : rule_t).generic = true ∧
      ({ generic := true, targets := [['a', '%', 'b']] } : rule_t).targets = [['a', '%', 'b']] ∧
      '%' ∈ (['a', '%', 'b'] : Str) ∧ (['a', 'x', 'b'] : Str).length < 10000) ∧
    ((find_rule [({ generic := true, targets := [['a', '%', 'b']] } : rule_t)] ['a', 'x', 'b'] =
        match pattern_stem? ['a', 'x', 'b'] ['a', '%', 'b'] with
        | some st => instantiate_rule { generic := true, targets := [['a', '%', 'b']] } st
        | none => {}) ∧
      (pattern_stem? ['a', 'x', 'b'] ['a', '%', 'b'] ≠ none ↔
        ((['a', '%', 'b'] : Str).takeWhile (fun c => c != '%')).length +
          (((['a', '%', 'b'] : Str).dropWhile (fun c => c != '%')).drop 1).length + 1 ≤
            (['a', 'x', 'b'] : Str).length ∧
        (['a', 'x', 'b'] : Str).take
            ((['a', '%', 'b'] : Str).takeWhile (fun c => c != '%')).length =
          (['a', '%', 'b'] : Str).takeWhile (fun c => c != '%') ∧
        (['a', 'x', 'b'] : Str).drop ((['a', 'x', 'b'] : Str).length -
            (((['a', '%', 'b'] : Str).dropWhile (fun c => c != '%')).drop 1).length) =
          ((['a', '%', 'b'] : Str).dropWhile (fun c => c != '%')).drop 1)) :=
  ⟨⟨rfl, rfl, by decide, by decide⟩,
    C3_empty_stem { generic := true, targets := [['a', '%', 'b']] } ['a', '%', 'b']
      ['a', 'x', 'b'] rfl rfl (by decide) (by decide)⟩

/-- Claim C3 is false as stated: the pattern `a%b` satisfies the claim's
match condition for the target `ab` (`len(target) = len(prefix)+len(suffix)`,
matching prefix and suffix, empty stem), yet `find_rule` treats it as no
match and returns the null rule. -/
theorem C3_empty_stem_cex :
    spec_pattern_matches ['a', 'b'] ['a', '%', 'b'] ∧
    (find_rule [{ generic := true, targets := [['a', '%', 'b']] }] ['a', 'b']).targets = [] := by
  constructor
  · unfold spec_pattern_matches
    decide
  · decide

/-! ## Claim C9: static dependencies recorded at rule-load time -/

theorem dep_lookup_insert_self (m : DepMap) (t d : Str) :
    d ∈ dep_lookup (dep_insert m t d) t := by
  induction m with
  | nil => simp [dep_insert, dep_lookup]
  | cons p m ih =>
    obtain ⟨k, ds⟩ := p
    by_cases hk : k = t
    · subst hk
      by_cases hd : d ∈ ds <;> simp [dep_insert, dep_lookup, hd]
    · simp [dep_insert, dep_lookup, hk, ih]

theorem dep_lookup_insert_mono (m : DepMap) (t d u x : Str)
    (h : x ∈ dep_lookup m u) : x ∈ dep_lookup (dep_insert m t d) u := by
  induction m with
  | nil => simp [dep_lookup] at h
  | cons p m ih =>
    obtain ⟨k, ds⟩ := p
    rw [dep_lookup] at h
    simp only [dep_insert]
    by_cases hk : k = t
    · rw [if_pos hk, dep_lookup]
      by_cases hku : k = u
      · rw [if_pos hku] at h
        rw [if_pos hku]
        by_cases hd : d ∈ ds
        · rw [if_pos hd]
          exact h
        · rw [if_neg hd]
          exact List.mem_append_left _ h
      · rw [if_neg hku] at h
        rw [if_neg hku]
        exact h
    · rw [if_neg hk, dep_lookup]
      by_cases hku : k = u
      · rw [if_pos hku] at h ⊢
        exact h
      · rw [if_neg hku] at h ⊢
        exact ih h

theorem dep_lookup_fold_mono (d : Str) :
    ∀ (ts : List Str) (m : DepMap) (u x : Str), x ∈ dep_lookup m u →
      x ∈ dep_lookup (ts.foldl (fun m2 t => dep_insert m2 t d) m) u := by
  intro ts
  induction ts with
  | nil => intro m u x h; exact h
  | cons a ts ih =>
    intro m u x h
    rw [List.foldl_cons]
    exact ih _ _ _ (dep_lookup_insert_mono m a d u x h)

theorem dep_lookup_fold_self (d : Str) :
    ∀ (ts : List Str) (m : DepMap) (t : Str), t ∈ ts →
      d ∈ dep_lookup (ts.foldl (fun m2 t => dep_insert m2 t d) m) t := by
  intro ts
  induction ts with
  | nil => intro m t ht; cases ht
  | cons a ts ih =>
    intro m t ht
    rw [List.foldl_cons]
    by_cases h2 : t ∈ ts
    · exact ih _ _ h2
    · have hta : t = a := by
        rcases List.mem_cons.mp ht with h | h
        · exact h
        · exact absurd h h2
      subst hta
      exact dep_lookup_fold_mono d ts _ _ _ (dep_lookup_insert_self m t d)

theorem lr_word_ok (c : Char) (s' : Str) (state : load_state) (cur : rule_t) (dm : DepMap)
    (q : Str × load_state × rule_t × DepMap)
    (hq : lr_word c s' state cur dm = some q)
    (hcur : cur_deps_ok cur dm)
    (hdeps : state ≠ .Dep → cur.deps = []) :
    cur_deps_ok q.2.2.1 q.2.2.2 ∧
    (∀ rules : List rule_t, rules_deps_ok rules dm → rules_deps_ok rules q.2.2.2) ∧
    ((q.2.1 = .Bof ∨ q.2.1 = .Tgt) → q.2.2.1.deps = []) := by
  simp only [lr_word] at hq
  split at hq
  · cases hq
  · split at hq
    · split at hq
      · cases hq
      · split at hq
        · rename_i hstate
          injection hq with h
          subst h
          refine ⟨?_, fun rules hr => hr, ?_⟩
          · intro hg
            simp at hg
          · intro _
            exact hdeps hstate
        · injection hq with h
          subst h
          refine ⟨?_, fun rules hr => hr, ?_⟩
          · intro hg
            simp at hg
          · intro h
            rcases h with h | h <;> cases h
    · split at hq
      · cases hq
      · split at hq
        · rename_i hstate
          injection hq with h
          subst h
          refine ⟨?_, fun rules hr => hr, ?_⟩
          · intro hg t ht d hd
            have hde : cur.deps = [] := hdeps hstate
            simp only [hde] at hd
            cases hd
          · intro _
            exact hdeps hstate
        · split at hq
          · injection hq with h
            subst h
            rename_i hgen
            refine ⟨?_, fun rules hr => hr, ?_⟩
            · intro hg
              simp only at hg
              rw [hg] at hgen
              cases hgen
            · intro h
              rcases h with h | h <;> cases h
          · injection hq with h
            subst h
            refine ⟨?_, ?_, ?_⟩
            · intro hg t ht d hd
              simp only at hg ht hd ⊢
              rcases List.mem_append.mp hd with hd1 | hd2
              · exact dep_lookup_fold_mono _ _ dm t d (hcur hg t ht d hd1)
              · rw [List.mem_singleton] at hd2
                subst hd2
                exact dep_lookup_fold_self _ cur.targets dm t ht
            · intro rules hr r hrr hgr t ht d hd
              exact dep_lookup_fold_mono _ _ dm t d (hr r hrr hgr t ht d hd)
            · intro h
              rcases h with h | h <;> cases h

theorem rules_deps_ok_push (rules : List rule_t) (cur : rule_t) (buf : Str) (dm : DepMap)
    (hr : rules_deps_ok rules dm) (hc : cur_deps_ok cur dm) :
    rules_deps_ok (rules ++ [finalize_rule cur buf]) dm := by
  intro r hrr hgr t ht d hdd
  rcases List.mem_append.mp hrr with h1 | h2
  · exact hr r h1 hgr t ht d hdd
  · rw [List.mem_singleton] at h2
    subst h2
    exact hc hgr t ht d hdd

theorem load_rules_loop_ok :
    ∀ (fuel : Nat) (s : Str) (state : load_state) (cur : rule_t) (buf : Str)
      (rules : List rule_t) (dm : DepMap) (out : List rule_t × DepMap),
      load_rules_loop fuel s state cur buf rules dm = some out →
      rules_deps_ok rules dm → cur_deps_ok cur dm →
      ((state = .Bof ∨ state = .Tgt) → cur.deps = []) →
      rules_deps_ok out.1 out.2 := by
  intro fuel
  induction fuel with
  | zero =>
    intro s state cur buf rules dm out h
    cases h
  | succ f ih =>
    intro s state cur buf rules dm out h hr hc hd
    cases s with
    | nil =>
      simp only [load_rules_loop] at h
      split at h
      · injection h with h
        subst h
        exact rules_deps_ok_push rules cur buf dm hr hc
      · injection h with h
        subst h
        exact hr
    | cons c s' =>
      simp only [load_rules_loop] at h
      split at h
      · split at h
        · injection h with h
          subst h
          exact rules_deps_ok_push rules cur buf dm hr hc
        · split at h
          · cases h
          · exact ih _ _ _ _ _ _ _ h hr hc hd
      · split at h
        · exact ih _ _ _ _ _ _ _ h hr hc hd
        · split at h
          · refine ih _ _ _ _ _ _ _ h hr hc ?_
            intro hx
            rcases hx with hx | hx <;> cases hx
          · split at h
            · refine ih _ _ _ _ _ _ _ h hr hc ?_
              intro hx
              rcases hx with hx | hx <;> cases hx
            · rename_i hn1 hn2 hn3 hn4
              by_cases hsc : state = .Script
              · rw [if_pos hsc] at h
                cases hlw : lr_word c s' state ({} : rule_t) dm with
                | none =>
                  rw [hlw] at h
                  cases h
                | some q =>
                  rw [hlw] at h
                  obtain ⟨hcq, hmq, hdq⟩ := lr_word_ok c s' state {} dm q hlw
                    (fun _ t ht => absurd ht (List.not_mem_nil t)) (fun _ => rfl)
                  exact ih _ _ _ _ _ _ _ h
                    (hmq _ (rules_deps_ok_push rules cur buf dm hr hc)) hcq hdq
              · rw [if_neg hsc] at h
                cases hlw : lr_word c s' state cur dm with
                | none =>
                  rw [hlw] at h
                  cases h
                | some q =>
                  rw [hlw] at h
                  have hdeps0 : state ≠ .Dep → cur.deps = [] := by
                    intro hnd
                    apply hd
                    cases state with
                    | Bof => exact Or.inl rfl
                    | Tgt => exact Or.inr rfl
                    | Dep => exact absurd rfl hnd
                    | Script => exact absurd rfl hsc
                  obtain ⟨hcq, hmq, hdq⟩ := lr_word_ok c s' state cur dm q hlw hc hdeps0
                  exact ih _ _ _ _ _ _ _ h (hmq _ hr) hcq hdq

/-- Claim C9: after `load_rules` succeeds, for every non-generic rule and
every target of that rule, the global dependency map contains every static
dependency the rule lists — the insertions happen while the rule file is
parsed (remake.cpp:563-569), before any rule is started and regardless of
what the initial dependency map (possibly empty, no `.remake` present)
contained; `get_status` consults exactly this map (remake.cpp:657), so the
static dependencies influence freshness verdicts from that moment on. -/
theorem C9_static_deps (input : Str) (dm0 : DepMap) (rules : List rule_t) (dm : DepMap)
    (h : load_rules dm0 input = some (rules, dm)) :
    ∀ r ∈ rules, r.generic = false → ∀ t ∈ r.targets, ∀ d ∈ r.deps, d ∈ dep_lookup dm t :=
  load_rules_loop_ok (input.length + 1) input .Bof {} [] [] dm0 (rules, dm) h
    (fun r hr => absurd hr (List.not_mem_nil r))
    (fun _ t ht => absurd ht (List.not_mem_nil t))
    (fun _ => rfl)

theorem C9_static_deps_witness :
    load_rules [] ['a', ' ', ':', ' ', 'b', '\n', '\t', 'c', '\n'] =
      some ([{ targets := [['a']], deps := [['b']], script := ['c', '\n'] }],
        [(['a'], [['b']])]) ∧
    (['b'] : Str) ∈ dep_lookup [((['a'] : Str), [(['b'] : Str)])] ['a'] :=
  ⟨by decide, C9_static_deps ['a', ' ', ':', ' ', 'b', '\n', '\t', 'c', '\n'] []
    [{ targets := [['a']], deps := [['b']], script := ['c', '\n'] }] [(['a'], [['b']])]
    (by decide)
    { targets := [['a']], deps := [['b']], script := ['c', '\n'] } (by decide) rfl
    ['a'] (by decide) ['b'] (by decide)⟩
